import Mathlib

/-!
Verification development for the Littlefield factory-projection application.

The development shallowly embeds the discrete-time lot-flow simulation engine
that appears (in two near-duplicate copies) in the repository:

* `useProjectionData` (the detailed projection hook producing a day-indexed
  metrics series), and
* `runTimelineSimulation` in `src/utils/simulationEngine.ts` (the timeline
  what-if driver producing a final cash value, applying scheduled
  configuration changes mid-run).

Modelling conventions:

* JavaScript numbers are modelled by `ℚ`.  All arithmetic in the engine is
  ring arithmetic plus `Math.floor` / `Math.round` / `Math.min` / `Math.max`,
  which are exactly `Int.floor`, `round` (both satisfy `round x = ⌊x + 1/2⌋`),
  `min` and `max` on `ℚ`.
* The daily arrival count `randomPoisson(avgArrivalRate || 10, day * 137)` is
  a deterministic function of the integer day built from `Math.sin` and
  `Math.exp`, which have no exact rational form.  The engines are therefore
  parameterised by an arrival oracle `oracle : ℕ → ℕ` mapping the integer
  simulated day to that call's value; the generator itself is modelled
  separately (`PoissonRun`) with its uniform source abstracted.
* The daily interest rates `Math.pow(1.20, 1/365) - 1` and
  `Math.pow(1.10, 1/365) - 1` are fixed irrational constants; the engines
  take them as parameters `debtRate`, `cashRate`.
* `jobs` is a JavaScript `Map` keyed by an incrementing id and iterated in
  insertion order; it is modelled as a `List Job` in insertion order.
  `lots` is an array, modelled as `List Lot`.
* The JavaScript array sort by `arrivalAtCurrentStation` is modelled by a
  stable insertion sort; the proofs below only use that the result is a
  permutation of the filtered queue.
* The supported lot sizes 12, 15, 20, 30, 60 all divide 60, so
  `lotsPerJob = 60 / lotSize` is modelled with natural division.
* Display-only record fields (the `toFixed` rounded copies, the per-station
  job grouping used by the charts, `avgLeadTime`, `jobsAccepted`) are omitted
  from the emitted day record; they are derived outputs that never feed back
  into the simulation state.
-/

namespace Littlefield

/-! ## Processing-time table and contract table -/

/-- Per-lot processing times in days (the source stores hours divided by 24):
`s1` for Stage 1, `s2` for the first Stage-2 pass (test 1), `s3` for
Stage 3, `s4` for the second Stage-2 pass (test 4). -/
structure ProcTimes where
  s1 : ℚ
  s2 : ℚ
  s3 : ℚ
  s4 : ℚ
  deriving DecidableEq, Repr

/-- The `processingTimesByLot` lookup table; unknown lot sizes fall back to
the 20-kit row, mirroring `processingTimesByLot[lotSize] || processingTimesByLot[20]`. -/
def processingTimesByLot (lotSize : ℕ) : ProcTimes :=
  if lotSize = 12 then ⟨2.42/24, 0.28/24, 0.40/24, 0.24/24⟩
  else if lotSize = 15 then ⟨2.68/24, 0.35/24, 0.48/24, 0.30/24⟩
  else if lotSize = 20 then ⟨3.10/24, 0.47/24, 0.61/24, 0.40/24⟩
  else if lotSize = 30 then ⟨3.95/24, 0.71/24, 0.95/24, 0.60/24⟩
  else if lotSize = 60 then ⟨6.50/24, 1.42/24, 1.85/24, 1.20/24⟩
  else ⟨3.10/24, 0.47/24, 0.61/24, 0.40/24⟩

/-- A contract tier: promised lead time, maximum lead time, face revenue. -/
structure Contract where
  promised : ℚ
  max : ℚ
  revenue : ℚ
  deriving DecidableEq, Repr

/-- The `contracts` table.  The source object has keys 1, 2, 3 only; other
indices are modelled by a zero row (the source would crash on them). -/
def contracts (tier : ℕ) : Contract :=
  if tier = 1 then ⟨7, 14, 750⟩
  else if tier = 2 then ⟨1, 5, 1000⟩
  else if tier = 3 then ⟨1/2, 1, 1250⟩
  else ⟨0, 0, 0⟩

/-- The piecewise contract revenue computed at job completion: face revenue
up to the promised lead time, linear decay to zero between promised and
maximum, zero at or beyond the maximum. -/
def contractRevenue (c : Contract) (leadTime : ℚ) : ℚ :=
  if leadTime ≤ c.promised then c.revenue
  else if leadTime < c.max then c.revenue * ((c.max - leadTime) / (c.max - c.promised))
  else 0

/-! ## Data model -/

/-- A lot's station: Stage 1, Stage 2 first pass, Stage 3, Stage 2 second
pass, or complete (the source's `1 | 2 | 3 | 4 | 'complete'`). -/
inductive Station where
  | s1 : Station
  | s2 : Station
  | s3 : Station
  | s4 : Station
  | complete : Station
  deriving DecidableEq, Repr

/-- Position of a station in the fixed routing sequence. -/
def Station.rank : Station → ℕ
  | .s1 => 0
  | .s2 => 1
  | .s3 => 2
  | .s4 => 3
  | .complete => 4

/-- The successor station in the routing sequence Stage 1 → Stage 2 (pass 1)
→ Stage 3 → Stage 2 (pass 2) → complete. -/
def Station.next : Station → Station
  | .s1 => .s2
  | .s2 => .s3
  | .s3 => .s4
  | .s4 => .complete
  | .complete => .complete

/-- A lot, the indivisible unit of flow. -/
structure Lot where
  id : ℕ
  jobId : ℕ
  currentStation : Station
  arrivalAtCurrentStation : ℚ
  deriving DecidableEq, Repr

/-- A job (customer order).  As in the source `Job` interface, the contract
terms in force at creation are copied onto the job. -/
structure Job where
  id : ℕ
  startDay : ℚ
  contractType : ℕ
  promisedLeadTime : ℚ
  maxLeadTime : ℚ
  revenue : ℚ
  totalLots : ℕ
  completedLots : ℕ
  completionDay : Option ℚ
  deriving DecidableEq, Repr

/-- The mutable simulation state threaded through the day loop. -/
structure SimState where
  jobs : List Job
  lots : List Lot
  nextJobId : ℕ
  nextLotId : ℕ
  waitingForKits : List ℕ
  kitsInventory : ℚ
  orderInTransit : Bool
  orderArrivalDay : ℚ
  cash : ℚ
  debt : ℚ
  deriving DecidableEq, Repr

/-- Current policy settings (the `Config` fields the engine reads). -/
structure Settings where
  lotSize : ℕ
  contract : ℕ
  station1Machines : ℕ
  station2Machines : ℕ
  station3Machines : ℕ
  materialReorderPoint : ℚ
  materialOrderQty : ℚ
  deriving DecidableEq, Repr

/-- The `settings.lotSize || 20` fallback. -/
def effLotSize (s : Settings) : ℕ := if s.lotSize = 0 then 20 else s.lotSize

/-- Lots per job, `60 / lotSize`.  All supported lot sizes divide 60, so
natural division agrees with the source's real division on them. -/
def lotsPerJobOf (s : Settings) : ℕ := 60 / effLotSize s

/-- Processing-time row in force for the given settings. -/
def procOf (s : Settings) : ProcTimes := processingTimesByLot (effLotSize s)

/-- The per-day configuration consumed by the daily step: machine counts and
processing times (which may change mid-run in the timeline engine), the
contract in force, the fixed material policy and the fixed daily interest
rates. -/
structure DayConfig where
  lotsPerJob : ℕ
  station1Machines : ℕ
  station2Machines : ℕ
  station3Machines : ℕ
  proc : ProcTimes
  contract : Contract
  contractType : ℕ
  orderQuantity : ℚ
  reorderPoint : ℚ
  cashRate : ℚ
  debtRate : ℚ
  deriving DecidableEq, Repr

/-- Build the day configuration from settings (as both engines do at the top
of each simulated day).  `orderQuantity` and `reorderPoint` are clamped with
`Math.max(0, ·)` once, outside the loop, in both engines. -/
def mkDayConfig (s : Settings) (orderQuantity reorderPoint cashRate debtRate : ℚ) : DayConfig :=
  { lotsPerJob := lotsPerJobOf s
    station1Machines := s.station1Machines
    station2Machines := s.station2Machines
    station3Machines := s.station3Machines
    proc := procOf s
    contract := contracts s.contract
    contractType := s.contract
    orderQuantity := orderQuantity
    reorderPoint := reorderPoint
    cashRate := cashRate
    debtRate := debtRate }

/-! ## Queues and capacities -/

/-- Stable insertion of a lot into a list sorted by arrival time; a lot is
placed before the first strictly later lot, preserving the relative order of
equal arrival times (JavaScript's stable sort). -/
def insertByArrival (l : Lot) : List Lot → List Lot
  | [] => [l]
  | x :: xs =>
    if x.arrivalAtCurrentStation < l.arrivalAtCurrentStation then x :: insertByArrival l xs
    else l :: x :: xs

/-- Stable sort of a queue by `arrivalAtCurrentStation` (the source's
`.sort((a, b) => a.arrivalAtCurrentStation - b.arrivalAtCurrentStation)`). -/
def sortByArrival : List Lot → List Lot
  | [] => []
  | x :: xs => insertByArrival x (sortByArrival xs)

/-- The FIFO queue at a station: filter the lot list, sort by arrival. -/
def queueAt (s : Station) (lots : List Lot) : List Lot :=
  sortByArrival (lots.filter fun l => decide (l.currentStation = s))

/-- Stage-1 daily capacity in lots:
`(1 / proc.s1) * station1Machines * 24`. -/
def capS1Daily (cfg : DayConfig) : ℚ :=
  1 / cfg.proc.s1 * (cfg.station1Machines : ℚ) * 24

/-- Stage-3 daily capacity in lots: `(1 / proc.s3) * 24`.  Note that both
engines omit the Stage-3 machine count here (`serviceRateS3 = 1 / procTimes.s3`
is not multiplied by `station3Machines`); the embedding preserves that. -/
def capS3Daily (cfg : DayConfig) : ℚ :=
  1 / cfg.proc.s3 * 24

/-- `Math.floor` of a capacity, as a natural number (capacities are
non-negative). -/
def floorCap (x : ℚ) : ℕ := (⌊x⌋).toNat

/-- Stage-2 allocation between its two passes: the day's machine-hour budget
`station2Machines * 24` is split proportionally to the two queue lengths,
converted to lots by dividing by the per-lot time of each pass, floored, and
capped by the queue length.  Returns (first-pass count, second-pass count);
both are zero when there is no Stage-2 demand. -/
def stage2Alloc (q2 q4 : ℕ) (machines2 : ℕ) (s2 s4 : ℚ) : ℕ × ℕ :=
  if q2 + q4 = 0 then (0, 0)
  else
    let total : ℚ := (q2 : ℚ) + (q4 : ℚ)
    let timeAvailable : ℚ := (machines2 : ℚ) * 24
    let timeForS2 := timeAvailable * ((q2 : ℚ) / total)
    let timeForS4 := timeAvailable * ((q4 : ℚ) / total)
    (min q2 (floorCap (timeForS2 / s2)), min q4 (floorCap (timeForS4 / s4)))

/-! ## Lot and job updates -/

/-- Advance a lot to a station, stamping the current day as its arrival. -/
def Lot.advanceTo (l : Lot) (s : Station) (day : ℚ) : Lot :=
  { l with currentStation := s, arrivalAtCurrentStation := day }

/-- Mark a lot complete (the arrival stamp is not updated in the source). -/
def Lot.finish (l : Lot) : Lot :=
  { l with currentStation := Station.complete }

/-- Apply `f` to exactly the lots whose id occurs in `ids`. -/
def updateLots (ids : List ℕ) (f : Lot → Lot) (lots : List Lot) : List Lot :=
  lots.map fun l => if l.id ∈ ids then f l else l

/-- Increment each job's `completedLots` once per occurrence of its id in
`jobIds` (the source runs `job.completedLots++` once per completed lot). -/
def bumpCompleted (jobIds : List ℕ) (jobs : List Job) : List Job :=
  jobs.map fun j => { j with completedLots := j.completedLots + jobIds.count j.id }

/-- Create `n` fresh lots for a job at a station, with sequential ids
starting at `startId`. -/
def mkLots (jobId startId n : ℕ) (s : Station) (arrival : ℚ) : List Lot :=
  (List.range n).map fun k =>
    { id := startId + k, jobId := jobId, currentStation := s, arrivalAtCurrentStation := arrival }

/-! ## The daily step -/

/-- Step 1 of the day: a material order in transit whose arrival day has been
reached adds the full order quantity to inventory and clears the flag. -/
def materialArrival (cfg : DayConfig) (day : ℚ) (st : SimState) : SimState :=
  if st.orderInTransit = true ∧ st.orderArrivalDay ≤ day then
    { st with kitsInventory := st.kitsInventory + cfg.orderQuantity, orderInTransit := false }
  else st

/-- Step 2: release kit-starved jobs FIFO while inventory covers a job's 60
kits; each release stamps the job's `startDay`, consumes 60 kits, and pushes
`lotsPerJob` fresh Stage-1 lots directly onto the lot list. -/
def releaseWaitingAux (lotsPerJob : ℕ) (day : ℚ) : List ℕ → SimState → SimState
  | [], st => { st with waitingForKits := [] }
  | jid :: rest, st =>
    if (60 : ℚ) ≤ st.kitsInventory then
      releaseWaitingAux lotsPerJob day rest
        { st with
          jobs := st.jobs.map fun j => if j.id = jid then { j with startDay := day } else j
          kitsInventory := st.kitsInventory - 60
          lots := st.lots ++ mkLots jid st.nextLotId lotsPerJob Station.s1 day
          nextLotId := st.nextLotId + lotsPerJob }
    else { st with waitingForKits := jid :: rest }

/-- Step 2 wrapper applied to the state's own waiting queue. -/
def releaseWaiting (cfg : DayConfig) (day : ℚ) (st : SimState) : SimState :=
  releaseWaitingAux cfg.lotsPerJob day st.waitingForKits { st with waitingForKits := [] }

/-- One Poisson arrival `j` of `arrivals`: create the job; if 60 kits are
available consume them and create its lots (collected separately, to be
appended after the stage transitions) with the fractional arrival stamp
`day + j / arrivals`; otherwise enqueue the job id to the starved queue. -/
def arrivalStep (cfg : DayConfig) (day : ℚ) (arrivals : ℕ) (acc : SimState × List Lot)
    (j : ℕ) : SimState × List Lot :=
  let st := acc.1
  let job : Job :=
    { id := st.nextJobId
      startDay := day
      contractType := cfg.contractType
      promisedLeadTime := cfg.contract.promised
      maxLeadTime := cfg.contract.max
      revenue := cfg.contract.revenue
      totalLots := cfg.lotsPerJob
      completedLots := 0
      completionDay := none }
  let st := { st with jobs := st.jobs ++ [job], nextJobId := st.nextJobId + 1 }
  if (60 : ℚ) ≤ st.kitsInventory then
    ({ st with kitsInventory := st.kitsInventory - 60, nextLotId := st.nextLotId + cfg.lotsPerJob },
      acc.2 ++ mkLots job.id st.nextLotId cfg.lotsPerJob Station.s1 (day + (j : ℚ) / (arrivals : ℚ)))
  else
    ({ st with waitingForKits := st.waitingForKits ++ [job.id] }, acc.2)

/-- Step 3: process the day's `arrivals` new jobs in order. -/
def processArrivals (cfg : DayConfig) (day : ℚ) (arrivals : ℕ) (st : SimState) :
    SimState × List Lot :=
  (List.range arrivals).foldl (arrivalStep cfg day arrivals) (st, [])

/-- The day's Stage-1 processing count: `min(queue, floor(capacity))`. -/
def psN1 (cfg : DayConfig) (st : SimState) : ℕ :=
  min (queueAt Station.s1 st.lots).length (floorCap (capS1Daily cfg))

/-- The day's Stage-3 processing count: `min(queue, floor(capacity))`. -/
def psN3 (cfg : DayConfig) (st : SimState) : ℕ :=
  min (queueAt Station.s3 st.lots).length (floorCap (capS3Daily cfg))

/-- The day's Stage-2 (first pass, second pass) processing counts from the
proportional allocation over the snapshot queue lengths. -/
def psAlloc (cfg : DayConfig) (st : SimState) : ℕ × ℕ :=
  stage2Alloc (queueAt Station.s2 st.lots).length (queueAt Station.s4 st.lots).length
    cfg.station2Machines cfg.proc.s2 cfg.proc.s4

/-- The lots completing today (front of the second-pass queue). -/
def psChosen4 (cfg : DayConfig) (st : SimState) : List Lot :=
  (queueAt Station.s4 st.lots).take (psAlloc cfg st).2

/-- The lots moving Stage 3 → second pass today. -/
def psChosen3 (cfg : DayConfig) (st : SimState) : List Lot :=
  (queueAt Station.s3 st.lots).take (psN3 cfg st)

/-- The lots moving first pass → Stage 3 today. -/
def psChosen2 (cfg : DayConfig) (st : SimState) : List Lot :=
  (queueAt Station.s2 st.lots).take (psAlloc cfg st).1

/-- The lots moving Stage 1 → first pass today. -/
def psChosen1 (cfg : DayConfig) (st : SimState) : List Lot :=
  (queueAt Station.s1 st.lots).take (psN1 cfg st)

/-- Step 4: snapshot the four station queues, compute the day's processing
counts, then advance the chosen lots in reverse pipeline order
(Stage-2 pass 2 → complete first, then Stage 3 → pass 2, pass 1 → Stage 3,
Stage 1 → pass 1), incrementing `completedLots` for each completed lot. -/
def processStations (cfg : DayConfig) (day : ℚ) (st : SimState) : SimState :=
  let lotsA := updateLots ((psChosen4 cfg st).map Lot.id) Lot.finish st.lots
  let jobsA := bumpCompleted ((psChosen4 cfg st).map Lot.jobId) st.jobs
  let lotsB := updateLots ((psChosen3 cfg st).map Lot.id) (fun l => l.advanceTo Station.s4 day) lotsA
  let lotsC := updateLots ((psChosen2 cfg st).map Lot.id) (fun l => l.advanceTo Station.s3 day) lotsB
  let lotsD := updateLots ((psChosen1 cfg st).map Lot.id) (fun l => l.advanceTo Station.s2 day) lotsC
  { st with lots := lotsD, jobs := jobsA }

/-- The per-lot effect of the day's stage transitions, as a single function
of a lot's id (the four chosen-id lists are disjoint on a well-formed lot
population, so the four conditional updates compose pointwise). -/
def psMove (cfg : DayConfig) (st : SimState) (day : ℚ) (l : Lot) : Lot :=
  let a := if l.id ∈ (psChosen4 cfg st).map Lot.id then l.finish else l
  let b := if a.id ∈ (psChosen3 cfg st).map Lot.id then a.advanceTo Station.s4 day else a
  let c := if b.id ∈ (psChosen2 cfg st).map Lot.id then b.advanceTo Station.s3 day else b
  if c.id ∈ (psChosen1 cfg st).map Lot.id then c.advanceTo Station.s2 day else c

theorem processStations_lots (cfg : DayConfig) (day : ℚ) (st : SimState) :
    (processStations cfg day st).lots = st.lots.map (psMove cfg st day) := by
  simp only [processStations, updateLots, List.map_map]
  rfl

theorem processStations_jobs (cfg : DayConfig) (day : ℚ) (st : SimState) :
    (processStations cfg day st).jobs = bumpCompleted ((psChosen4 cfg st).map Lot.jobId) st.jobs :=
  rfl

theorem processStations_waiting (cfg : DayConfig) (day : ℚ) (st : SimState) :
    (processStations cfg day st).waitingForKits = st.waitingForKits := rfl

/-- Revenue of one completed job given the completion day, per its stored
contract terms. -/
def jobRevenue (j : Job) (day : ℚ) : ℚ :=
  contractRevenue ⟨j.promisedLeadTime, j.maxLeadTime, j.revenue⟩ (day - j.startDay)

/-- Step 6: jobs whose `completedLots` reached `totalLots` and whose
`completionDay` is unset get `completionDay := day`; returns the updated job
list, the number of jobs completing today, and today's revenue total in $k
(face revenue divided by 1000 per job). -/
def completeJobs (day : ℚ) (jobs : List Job) : List Job × ℕ × ℚ :=
  let done := jobs.filter fun j => decide (j.completionDay = none ∧ j.completedLots = j.totalLots)
  (jobs.map fun j =>
      if j.completionDay = none ∧ j.completedLots = j.totalLots then
        { j with completionDay := some day }
      else j,
    done.length,
    (done.map fun j => jobRevenue j day / 1000).sum)

/-- End-of-day debt paydown: when debt is positive and cash exceeds the
buffer of 10 ($10k), pay `min(debt, cash - 10)` out of both.  Returns
(payment, new cash, new debt). -/
def debtPaydown (cash debt : ℚ) : ℚ × ℚ × ℚ :=
  if 0 < debt ∧ 10 < cash then
    let p := min debt (cash - 10)
    (p, cash - p, debt - p)
  else (0, cash, debt)

/-- The financial tail of a day: interest, revenue, the material-order
check against post-revenue cash, net profit, then debt paydown. -/
structure FinOut where
  cashInterestEarned : ℚ
  debtInterestPaid : ℚ
  netInterest : ℚ
  materialCost : ℚ
  debtPayment : ℚ
  netProfit : ℚ
  deriving DecidableEq, Repr

/-- Step 7: financial update for the day. -/
def financeStep (cfg : DayConfig) (day : ℚ) (dailyRev : ℚ) (st : SimState) :
    SimState × FinOut :=
  let cashInterestEarned := if 0 < st.cash then st.cash * cfg.cashRate else 0
  let debtInterestPaid := if 0 < st.debt then st.debt * cfg.debtRate else 0
  let netInterest := cashInterestEarned - debtInterestPaid
  let cashAfterRevenue := st.cash + dailyRev + netInterest
  let orderCost := cfg.orderQuantity * (1/100) + 1
  let placeOrder : Prop :=
    st.kitsInventory ≤ cfg.reorderPoint ∧ st.orderInTransit = false ∧
      0 < cfg.orderQuantity ∧ orderCost ≤ cashAfterRevenue
  let materialCost := if placeOrder then orderCost else 0
  let inTransit := if placeOrder then true else st.orderInTransit
  let arrDay := if placeOrder then day + 4 else st.orderArrivalDay
  let netProfit := dailyRev + netInterest - materialCost
  let cash1 := st.cash + netProfit
  let pd := debtPaydown cash1 st.debt
  let st' := { st with cash := pd.2.1, debt := pd.2.2, orderInTransit := inTransit, orderArrivalDay := arrDay }
  (st',
    { cashInterestEarned := cashInterestEarned
      debtInterestPaid := debtInterestPaid
      netInterest := netInterest
      materialCost := materialCost
      debtPayment := pd.1
      netProfit := netProfit })

/-- The record emitted for one simulated day (charting fields that are pure
display copies are omitted; see the module header). -/
structure DayRecord where
  day : ℚ
  revenue : ℚ
  materialCost : ℚ
  machineCost : ℚ
  netInterest : ℚ
  debtInterest : ℚ
  cashInterest : ℚ
  debtPayment : ℚ
  profit : ℚ
  debt : ℚ
  cash : ℚ
  arrivals : ℕ
  jobsCompleting : ℕ
  jobsWaitingForKits : ℕ
  jobsInSystem : ℕ
  lotsWaitingS1 : ℕ
  lotsWaitingS2 : ℕ
  lotsWaitingS3 : ℕ
  lotsWaitingS4 : ℕ
  inventory : ℚ
  reorderPoint : ℚ
  orderInTransit : Bool
  deriving DecidableEq, Repr

/-- Intermediate state after steps 1 and 2 (material arrival and release of
kit-starved jobs). -/
def afterRelease (cfg : DayConfig) (day : ℚ) (st : SimState) : SimState :=
  releaseWaiting cfg day (materialArrival cfg day st)

/-- Intermediate state and pending new lots after step 3 (Poisson arrivals). -/
def afterArrivals (cfg : DayConfig) (arrivals : ℕ) (day : ℚ) (st : SimState) :
    SimState × List Lot :=
  processArrivals cfg day arrivals (afterRelease cfg day st)

/-- State after step 5: stage transitions applied to the snapshot queues,
then the day's new arrival lots appended. -/
def afterMoves (cfg : DayConfig) (arrivals : ℕ) (day : ℚ) (st : SimState) : SimState :=
  let a := afterArrivals cfg arrivals day st
  let m := processStations cfg day a.1
  { m with lots := m.lots ++ a.2 }

/-- One full simulated day: material arrival, starved-queue release, Poisson
arrivals, stage transitions, completion detection and revenue, financial
update.  Returns the new state and the day's metrics record. -/
def dayStep (cfg : DayConfig) (arrivals : ℕ) (day : ℚ) (machineCost : ℚ) (st : SimState) :
    SimState × DayRecord :=
  let s5 := afterMoves cfg arrivals day st
  let cj := completeJobs day s5.jobs
  let s6 := { s5 with jobs := cj.1 }
  let fin := financeStep cfg day cj.2.2 s6
  let stF := fin.1
  (stF,
    { day := day
      revenue := cj.2.2
      materialCost := fin.2.materialCost
      machineCost := machineCost
      netInterest := fin.2.netInterest
      debtInterest := fin.2.debtInterestPaid
      cashInterest := fin.2.cashInterestEarned
      debtPayment := fin.2.debtPayment
      profit := fin.2.netProfit
      debt := stF.debt
      cash := stF.cash
      arrivals := arrivals
      jobsCompleting := cj.2.1
      jobsWaitingForKits := stF.waitingForKits.length
      jobsInSystem := (stF.jobs.filter fun j => decide (j.completionDay = none)).length
      lotsWaitingS1 := (stF.lots.filter fun l => decide (l.currentStation = Station.s1)).length
      lotsWaitingS2 := (stF.lots.filter fun l => decide (l.currentStation = Station.s2)).length
      lotsWaitingS3 := (stF.lots.filter fun l => decide (l.currentStation = Station.s3)).length
      lotsWaitingS4 := (stF.lots.filter fun l => decide (l.currentStation = Station.s4)).length
      inventory := stF.kitsInventory
      reorderPoint := cfg.reorderPoint
      orderInTransit := stF.orderInTransit })

/-! ## Historical inputs and initial WIP reconstruction -/

/-- `Math.round` to a natural number (the reconstructed lot counts are used
as loop bounds, so negative values behave as zero, matching a JavaScript
`for` loop with a negative bound). -/
def roundNat (x : ℚ) : ℕ := (round x).toNat

/-- First-pass share of Stage-2 per-lot time, `s2 / (s2 + s4)`. -/
def fracFirstPass (pt : ProcTimes) : ℚ := pt.s2 / (pt.s2 + pt.s4)

/-- Second-pass share of Stage-2 per-lot time, `s4 / (s2 + s4)`. -/
def fracSecondPass (pt : ProcTimes) : ℚ := pt.s4 / (pt.s2 + pt.s4)

/-- The `recommendations.analysis` record consumed by both engines. -/
structure Analysis where
  currentDay : ℕ
  avgLeadTime : ℚ
  debt : ℚ
  cash : ℚ
  avgQueuedJobs : ℚ
  avgQueue1 : ℚ
  avgQueue2 : ℚ
  avgQueue3 : ℚ
  deriving DecidableEq, Repr

/-- An initial in-flight job synthesised during WIP reconstruction: job `i`
(zero-based) of `totalJobs` gets id `i + 1` and a start day linearly spaced
over the historical lead-time window.  Both engines use this formula. -/
def mkInitJob (s : Settings) (totalJobs : ℕ) (esd hlt : ℚ) (i : ℕ) : Job :=
  { id := i + 1
    startDay := esd + ((i : ℚ) / (totalJobs : ℚ)) * hlt
    contractType := s.contract
    promisedLeadTime := (contracts s.contract).promised
    maxLeadTime := (contracts s.contract).max
    revenue := (contracts s.contract).revenue
    totalLots := lotsPerJobOf s
    completedLots := 0
    completionDay := none }

/-- Assign reconstructed lots to the synthesised jobs in id order, filling
each job from the most advanced stage backwards (Stage-2 second pass first,
then Stage 3, Stage-2 first pass, Stage 1), at most `lpj` lots per job,
consuming the per-station pools.  The source iterates `jobArray` sorted by
`startDay`, which coincides with id order because the synthetic start days
are non-decreasing in the id. -/
def fillJobs (lpj : ℕ) (day : ℚ) : List ℕ → ℕ → ℕ → ℕ → ℕ → ℕ → List Lot
  | [], _, _, _, _, _ => []
  | jid :: rest, nextId, r4, r3, r2, r1 =>
    let t4 := min lpj r4
    let t3 := min (lpj - t4) r3
    let t2 := min (lpj - t4 - t3) r2
    let t1 := min (lpj - t4 - t3 - t2) r1
    mkLots jid nextId t4 Station.s4 day ++
      mkLots jid (nextId + t4) t3 Station.s3 day ++
      mkLots jid (nextId + t4 + t3) t2 Station.s2 day ++
      mkLots jid (nextId + t4 + t3 + t2) t1 Station.s1 day ++
      fillJobs lpj day rest (nextId + t4 + t3 + t2 + t1) (r4 - t4) (r3 - t3) (r2 - t2) (r1 - t1)

/-! ### The projection hook (`useProjectionData`) -/

/-- Inputs of `useProjectionData`: the analysis record, the profit
projection's scalars, the current settings, the inventory state, the arrival
oracle and the two interest-rate constants. -/
structure ProjInputs where
  analysis : Analysis
  avgJobsPerDay : ℚ
  totalMachineCost : ℚ
  upfrontFee : ℚ
  newDebt : ℚ
  settings : Settings
  inventory : ℚ
  orderInTransit : Bool
  orderArrivalDay : ℚ
  oracle : ℕ → ℕ
  cashRate : ℚ
  debtRate : ℚ

/-- Lot size in force (`settings.lotSize || 20`). -/
def projLotSize (p : ProjInputs) : ℕ := effLotSize p.settings

/-- Lots per job in force. -/
def projLpj (p : ProjInputs) : ℕ := lotsPerJobOf p.settings

/-- Processing-time row in force. -/
def projProc (p : ProjInputs) : ProcTimes := procOf p.settings

/-- Reconstruction capacity of Stage 1 in lots/day,
`station1Machines / proc.s1`. -/
def projCapS1 (p : ProjInputs) : ℚ := (p.settings.station1Machines : ℚ) / (projProc p).s1

/-- Reconstruction capacity of Stage 3 in lots/day,
`station3Machines / proc.s3`. -/
def projCapS3 (p : ProjInputs) : ℚ := (p.settings.station3Machines : ℚ) / (projProc p).s3

/-- Stage-2 combined throughput capacity,
`station2Machines / (s2 + s4)`. -/
def projS2TotalCapacity (p : ProjInputs) : ℚ :=
  (p.settings.station2Machines : ℚ) / ((projProc p).s2 + (projProc p).s4)

/-- Bottleneck throughput, the minimum of the three stage capacities. -/
def projBottleneck (p : ProjInputs) : ℚ :=
  min (projCapS1 p) (min (projS2TotalCapacity p) (projCapS3 p))

/-- Expected daily job completions, `bottleneck / lotsPerJob`. -/
def projEdc (p : ProjInputs) : ℚ := projBottleneck p / (projLpj p : ℚ)

/-- Daily lot throughput, `expectedDailyJobCompletions * lotsPerJob`. -/
def projDlt (p : ProjInputs) : ℚ := projEdc p * (projLpj p : ℚ)

/-- The Stage-2 historical kit aggregate converted to lots,
`avgQueue2 / lotSize`. -/
def projTotal2 (p : ProjInputs) : ℚ := p.analysis.avgQueue2 / (projLotSize p : ℚ)

/-- Reconstructed Stage-1 queue, capped at 200 lots. -/
def projLotsAtS1 (p : ProjInputs) : ℕ :=
  min (roundNat (p.analysis.avgQueue1 / (projLotSize p : ℚ))) 200

/-- Reconstructed Stage-2 first-pass queue: the time-proportional share of
the Stage-2 aggregate, capped at 50 lots. -/
def projLotsAtS2 (p : ProjInputs) : ℕ :=
  min (roundNat (projTotal2 p * fracFirstPass (projProc p))) 50

/-- Reconstructed Stage-3 queue: the historical queue capped at 50, raised
to a 30% pipeline-buffer floor (`dailyLotThroughput * 2.5 * 0.3`). -/
def projLotsAtS3 (p : ProjInputs) : ℕ :=
  max (min (roundNat (p.analysis.avgQueue3 / (projLotSize p : ℚ))) 50)
    (roundNat (projDlt p * (5/2) * (3/10)))

/-- Reconstructed Stage-2 second-pass queue: the time-proportional share of
the Stage-2 aggregate plus one day of expected completions, raised to a 40%
pipeline-buffer floor (`dailyLotThroughput * 2.5 * 0.4`). -/
def projLotsAtS4 (p : ProjInputs) : ℕ :=
  max (roundNat (projTotal2 p * fracSecondPass (projProc p)) +
      roundNat (projEdc p * (projLpj p : ℚ) * 1))
    (roundNat (projDlt p * (5/2) * (2/5)))

/-- Total reconstructed WIP in lots. -/
def projTotalWIP (p : ProjInputs) : ℕ :=
  projLotsAtS1 p + projLotsAtS2 p + projLotsAtS3 p + projLotsAtS4 p

/-- Initial number of kit-starved jobs, `Math.round(avgQueuedJobs || 0)`. -/
def projJobsWaiting (p : ProjInputs) : ℕ := roundNat p.analysis.avgQueuedJobs

/-- Historical lead time with the `|| 2.0` fallback. -/
def projHlt (p : ProjInputs) : ℚ :=
  if p.analysis.avgLeadTime = 0 then 2 else p.analysis.avgLeadTime

/-- Number of synthesised in-flight jobs, `floor(totalWIPLots / lotsPerJob)`. -/
def projTotalJobs (p : ProjInputs) : ℕ := projTotalWIP p / projLpj p

/-- Estimated common start-day origin, `currentDay - historicalLeadTime`. -/
def projEsd (p : ProjInputs) : ℚ := (p.analysis.currentDay : ℚ) - projHlt p

/-- The synthesised in-flight jobs. -/
def projInitJobs (p : ProjInputs) : List Job :=
  (List.range (projTotalJobs p)).map (mkInitJob p.settings (projTotalJobs p) (projEsd p) (projHlt p))

/-- The initial kit-starved jobs (ids continuing after the in-flight jobs,
start day `currentDay - 0.5`). -/
def projWaitJobs (p : ProjInputs) : List Job :=
  (List.range (projJobsWaiting p)).map fun i =>
    { id := projTotalJobs p + 1 + i
      startDay := (p.analysis.currentDay : ℚ) - 1/2
      contractType := p.settings.contract
      promisedLeadTime := (contracts p.settings.contract).promised
      maxLeadTime := (contracts p.settings.contract).max
      revenue := (contracts p.settings.contract).revenue
      totalLots := projLpj p
      completedLots := 0
      completionDay := none }

/-- The reconstructed lot population. -/
def projInitLots (p : ProjInputs) : List Lot :=
  fillJobs (projLpj p) (p.analysis.currentDay : ℚ) ((projInitJobs p).map Job.id) 1
    (projLotsAtS4 p) (projLotsAtS3 p) (projLotsAtS2 p) (projLotsAtS1 p)

/-- The initial simulation state of the projection hook. -/
def projInit (p : ProjInputs) : SimState :=
  { jobs := projInitJobs p ++ projWaitJobs p
    lots := projInitLots p
    nextJobId := projTotalJobs p + projJobsWaiting p + 1
    nextLotId := (projInitLots p).length + 1
    waitingForKits := (projWaitJobs p).map Job.id
    kitsInventory := p.inventory
    orderInTransit := p.orderInTransit
    orderArrivalDay := p.orderArrivalDay
    cash := p.analysis.cash - p.totalMachineCost - p.upfrontFee
    debt := if p.newDebt = 0 then p.analysis.debt else p.newDebt }

/-- The constant day configuration of the projection hook (its settings do
not change during the run). -/
def projCfg (p : ProjInputs) : DayConfig :=
  mkDayConfig p.settings (max 0 p.settings.materialOrderQty)
    (max 0 p.settings.materialReorderPoint) p.cashRate p.debtRate

/-- The integer day simulated by step `n` (zero-based):
`currentDay + n + 1`. -/
def projDayAt (p : ProjInputs) (n : ℕ) : ℕ := p.analysis.currentDay + n + 1

/-- Run the projection day loop for `n` days, accumulating the series. -/
def projRun (p : ProjInputs) : ℕ → SimState × List DayRecord
  | 0 => (projInit p, [])
  | n + 1 =>
    let prev := projRun p n
    let d := projDayAt p n
    let mc := if n = 0 then p.totalMachineCost else 0
    let s := dayStep (projCfg p) (p.oracle d) (d : ℚ) mc prev.1
    (s.1, prev.2 ++ [s.2])

/-- State of the projection run after `n` simulated days. -/
def projStates (p : ProjInputs) (n : ℕ) : SimState := (projRun p n).1

/-- The full projection hook: guard degenerate throughput, reconstruct WIP,
abort with an empty series when the reconstructed WIP exceeds 300 lots, else
run to day 318. -/
def runProjection (p : ProjInputs) : List DayRecord :=
  if p.avgJobsPerDay ≤ 0 then []
  else if 300 < projTotalWIP p then []
  else (projRun p (318 - p.analysis.currentDay)).2

/-! ### The timeline driver (`runTimelineSimulation`) -/

/-- The effect of a recommended change, abstracting the source's string
matching on `change.action` (`'Station 1'`/`'Station 2'`/`'Station 3'` for
capacity, `'Contract k'` for contracts, the `/to (\d+)/` capture for lot
sizes). -/
inductive ChangeEffect where
  | addStation1 : ChangeEffect
  | addStation2 : ChangeEffect
  | addStation3 : ChangeEffect
  | setContract : ℕ → ChangeEffect
  | setLotSize : ℕ → ChangeEffect
  deriving DecidableEq, Repr

/-- A scheduled change of the strategic timeline. -/
structure Change where
  recommendedDay : ℕ
  effect : ChangeEffect
  cost : ℚ
  needsDebt : Bool
  deriving DecidableEq, Repr

/-- Pay for a capacity purchase: credit debt when financed, else debit cash. -/
def payForChange (c : Change) (st : SimState) : SimState :=
  if c.needsDebt then { st with debt := st.debt + c.cost }
  else { st with cash := st.cash - c.cost }

/-- Apply one scheduled change if today is its recommended day. -/
def applyChange (day : ℕ) (acc : Settings × SimState) (c : Change) : Settings × SimState :=
  if c.recommendedDay = day then
    match c.effect with
    | ChangeEffect.addStation1 =>
      ({ acc.1 with station1Machines := acc.1.station1Machines + 1 }, payForChange c acc.2)
    | ChangeEffect.addStation2 =>
      ({ acc.1 with station2Machines := acc.1.station2Machines + 1 }, payForChange c acc.2)
    | ChangeEffect.addStation3 =>
      ({ acc.1 with station3Machines := acc.1.station3Machines + 1 }, payForChange c acc.2)
    | ChangeEffect.setContract k => ({ acc.1 with contract := k }, acc.2)
    | ChangeEffect.setLotSize n => ({ acc.1 with lotSize := n }, acc.2)
  else acc

/-- Apply all scheduled changes for the day, in list order. -/
def applyChanges (changes : List Change) (day : ℕ) (acc : Settings × SimState) :
    Settings × SimState :=
  changes.foldl (applyChange day) acc

/-- Inputs of `runTimelineSimulation`. -/
structure TimelineInputs where
  analysis : Analysis
  changes : List Change
  initialSettings : Settings
  oracle : ℕ → ℕ
  cashRate : ℚ
  debtRate : ℚ

/-- Lot size of the timeline reconstruction (initial settings). -/
def tlLotSize (t : TimelineInputs) : ℕ := effLotSize t.initialSettings

/-- Stage-2 aggregate in lots for the timeline reconstruction. -/
def tlTotal2 (t : TimelineInputs) : ℚ := t.analysis.avgQueue2 / (tlLotSize t : ℚ)

/-- Timeline reconstructed Stage-1 queue, capped at 200 lots. -/
def tlLotsAtS1 (t : TimelineInputs) : ℕ :=
  min (roundNat (t.analysis.avgQueue1 / (tlLotSize t : ℚ))) 200

/-- Timeline reconstructed Stage-2 first-pass queue: time-proportional share
of the Stage-2 aggregate, capped at 50 lots. -/
def tlLotsAtS2 (t : TimelineInputs) : ℕ :=
  min (roundNat (tlTotal2 t * fracFirstPass (procOf t.initialSettings))) 50

/-- Timeline reconstructed Stage-3 queue, capped at 50 lots. -/
def tlLotsAtS3 (t : TimelineInputs) : ℕ :=
  min (roundNat (t.analysis.avgQueue3 / (tlLotSize t : ℚ))) 50

/-- Timeline reconstructed Stage-2 second-pass queue: time-proportional
share of the Stage-2 aggregate (uncapped). -/
def tlLotsAtS4 (t : TimelineInputs) : ℕ :=
  roundNat (tlTotal2 t * fracSecondPass (procOf t.initialSettings))

/-- Timeline total reconstructed WIP (the timeline driver has no 300-lot
abort check). -/
def tlTotalWIP (t : TimelineInputs) : ℕ :=
  tlLotsAtS1 t + tlLotsAtS2 t + tlLotsAtS3 t + tlLotsAtS4 t

/-- Timeline job count, `floor(totalWIPLots / lotsPerJob)`. -/
def tlTotalJobs (t : TimelineInputs) : ℕ := tlTotalWIP t / lotsPerJobOf t.initialSettings

/-- Timeline historical lead time with the `|| 2.0` fallback. -/
def tlHlt (t : TimelineInputs) : ℚ :=
  if t.analysis.avgLeadTime = 0 then 2 else t.analysis.avgLeadTime

/-- Timeline estimated start-day origin. -/
def tlEsd (t : TimelineInputs) : ℚ := (t.analysis.currentDay : ℚ) - tlHlt t

/-- Timeline synthesised in-flight jobs. -/
def tlInitJobs (t : TimelineInputs) : List Job :=
  (List.range (tlTotalJobs t)).map (mkInitJob t.initialSettings (tlTotalJobs t) (tlEsd t) (tlHlt t))

/-- Timeline reconstructed lot population. -/
def tlInitLots (t : TimelineInputs) : List Lot :=
  fillJobs (lotsPerJobOf t.initialSettings) (t.analysis.currentDay : ℚ)
    ((tlInitJobs t).map Job.id) 1 (tlLotsAtS4 t) (tlLotsAtS3 t) (tlLotsAtS2 t) (tlLotsAtS1 t)

/-- Initial simulation state of the timeline driver: inventory starts at the
hard-coded 1000 kits, no order in transit, no initial kit-starved jobs. -/
def tlInit (t : TimelineInputs) : SimState :=
  { jobs := tlInitJobs t
    lots := tlInitLots t
    nextJobId := tlTotalJobs t + 1
    nextLotId := (tlInitLots t).length + 1
    waitingForKits := []
    kitsInventory := 1000
    orderInTransit := false
    orderArrivalDay := 0
    cash := t.analysis.cash
    debt := t.analysis.debt }

/-- The timeline day configuration for the settings currently in force
(material policy stays fixed at the initial settings, as in the source). -/
def tlCfg (t : TimelineInputs) (s : Settings) : DayConfig :=
  mkDayConfig s (max 0 t.initialSettings.materialOrderQty)
    (max 0 t.initialSettings.materialReorderPoint) t.cashRate t.debtRate

/-- Run the timeline day loop for `n` days, applying scheduled changes at
the start of each day. -/
def timelineRun (t : TimelineInputs) : ℕ → Settings × SimState
  | 0 => (t.initialSettings, tlInit t)
  | n + 1 =>
    let prev := timelineRun t n
    let d := t.analysis.currentDay + n + 1
    let sc := applyChanges t.changes d prev
    let s := dayStep (tlCfg t sc.1) (t.oracle d) (d : ℚ) 0 sc.2
    (sc.1, s.1)

/-- Final cash of the timeline simulation. -/
def runTimeline (t : TimelineInputs) : ℚ := (timelineRun t (318 - t.analysis.currentDay)).2.cash

/-! ## The Poisson arrival generator -/

/-- Big-step semantics of the `randomPoisson` do-while loop.  The state is
(seed, running product `p`, iteration count `k`); `u` abstracts the uniform
variate `frac(Math.sin(seed) * 10000)` drawn at a given seed, and `L`
abstracts `Math.exp(-lambda)`.  `PoissonRun u L seed p k r` holds when the
loop, entered with that state, terminates returning `r` (the source returns
`k - 1` after the final increment, so a run that stops at its first test
from `k = 0` returns `0`). -/
inductive PoissonRun (u : ℚ → ℚ) (L : ℚ) : ℚ → ℚ → ℕ → ℕ → Prop where
  | stop (seed p k) : p * u seed ≤ L → PoissonRun u L seed p k k
  | step (seed p k r) : L < p * u seed → PoissonRun u L (seed + 1) (p * u seed) (k + 1) r →
      PoissonRun u L seed p k r

/-! ## Infrastructure lemmas: queues, updates, lookups -/

theorem perm_insertByArrival (l : Lot) (xs : List Lot) : (insertByArrival l xs).Perm (l :: xs) := by
  induction xs with
  | nil => rfl
  | cons x xs ih =>
    rw [insertByArrival]
    split_ifs with h
    · exact ((ih.cons x).trans (List.Perm.swap l x xs))
    · exact List.Perm.refl _

theorem perm_sortByArrival (xs : List Lot) : (sortByArrival xs).Perm xs := by
  induction xs with
  | nil => rfl
  | cons x xs ih => exact (perm_insertByArrival x (sortByArrival xs)).trans (ih.cons x)

theorem mem_queueAt {x : Lot} {s : Station} {lots : List Lot} :
    x ∈ queueAt s lots ↔ x ∈ lots ∧ x.currentStation = s := by
  rw [queueAt, (perm_sortByArrival _).mem_iff, List.mem_filter]
  simp

theorem queueAt_ids_nodup {lots : List Lot} (h : (lots.map Lot.id).Nodup) (s : Station) :
    ((queueAt s lots).map Lot.id).Nodup := by
  have hp : ((queueAt s lots).map Lot.id).Perm
      ((lots.filter fun l => decide (l.currentStation = s)).map Lot.id) :=
    (perm_sortByArrival _).map Lot.id
  refine hp.nodup_iff.mpr ?_
  exact h.sublist ((List.filter_sublist _).map Lot.id)

theorem mem_take_queueAt {x : Lot} {s : Station} {lots : List Lot} {n : ℕ}
    (h : x ∈ (queueAt s lots).take n) : x ∈ lots ∧ x.currentStation = s :=
  mem_queueAt.mp (List.mem_of_mem_take h)

theorem take_queueAt_ids_nodup {lots : List Lot} (h : (lots.map Lot.id).Nodup)
    (s : Station) (n : ℕ) : (((queueAt s lots).take n).map Lot.id).Nodup :=
  (queueAt_ids_nodup h s).sublist ((List.take_sublist _ _).map Lot.id)

theorem lot_eq_of_id_eq {lots : List Lot} (h : (lots.map Lot.id).Nodup)
    {l₁ l₂ : Lot} (h₁ : l₁ ∈ lots) (h₂ : l₂ ∈ lots) (hid : l₁.id = l₂.id) : l₁ = l₂ :=
  List.inj_on_of_nodup_map h h₁ h₂ hid

theorem station_of_id_mem_chosen {lots : List Lot} (hnd : (lots.map Lot.id).Nodup)
    {l : Lot} (hl : l ∈ lots) {s : Station} {n : ℕ}
    (hmem : l.id ∈ ((queueAt s lots).take n).map Lot.id) : l.currentStation = s := by
  obtain ⟨x, hx, hxid⟩ := List.mem_map.mp hmem
  obtain ⟨hxl, hxs⟩ := mem_take_queueAt hx
  have : l = x := lot_eq_of_id_eq hnd hl hxl hxid.symm
  rw [this]; exact hxs

theorem find?_map_eq {α : Type} (f : α → α) (p : α → Bool) (h : ∀ a, p (f a) = p a)
    (l : List α) : (l.map f).find? p = (l.find? p).map f := by
  induction l with
  | nil => rfl
  | cons x xs ih =>
    by_cases hx : p x
    · rw [List.map_cons, List.find?_cons_of_pos _ (by rw [h]; exact hx),
        List.find?_cons_of_pos _ hx]
      rfl
    · rw [List.map_cons, List.find?_cons_of_neg _ (by rw [h]; simpa using hx),
        List.find?_cons_of_neg _ (by simpa using hx), ih]

theorem updateLots_map_id {ids : List ℕ} {f : Lot → Lot} (hf : ∀ l, (f l).id = l.id)
    (lots : List Lot) : (updateLots ids f lots).map Lot.id = lots.map Lot.id := by
  rw [updateLots, List.map_map]
  refine List.map_congr_left fun l _ => ?_
  by_cases h : l.id ∈ ids <;> simp [h, hf]

theorem countP_split {α : Type} (p q : α → Bool) (l : List α) :
    l.countP p = l.countP (fun a => p a && q a) + l.countP (fun a => p a && !q a) := by
  induction l with
  | nil => rfl
  | cons x xs ih =>
    by_cases hp : p x <;> by_cases hq : q x <;>
      simp [List.countP_cons, hp, hq, ih] <;> omega

theorem countP_le_of_nodup_subset {α : Type} [DecidableEq α] {l₁ l₂ : List α}
    (hnd : l₁.Nodup) (hsub : ∀ a ∈ l₁, a ∈ l₂) (p : α → Bool) (hp : ∀ a ∈ l₁, p a) :
    l₁.length ≤ l₂.countP p := by
  have hsp : l₁.Subperm l₂ := hnd.subperm (fun a ha => hsub a ha)
  obtain ⟨l, hperm, hsl⟩ := hsp
  calc l₁.length = l₁.countP p := (List.countP_eq_length.mpr hp).symm
    _ = l.countP p := (hperm.countP_eq p).symm
    _ ≤ l₂.countP p := hsl.countP_le p

theorem mkLots_ids (jobId startId n : ℕ) (s : Station) (a : ℚ) :
    (mkLots jobId startId n s a).map Lot.id = (List.range n).map (startId + ·) := by
  rw [mkLots, List.map_map]; rfl

theorem mem_mkLots {l : Lot} {jobId startId n : ℕ} {s : Station} {a : ℚ}
    (h : l ∈ mkLots jobId startId n s a) :
    l.jobId = jobId ∧ l.currentStation = s ∧ startId ≤ l.id ∧ l.id < startId + n ∧
      l.arrivalAtCurrentStation = a := by
  rw [mkLots] at h
  obtain ⟨k, hk, rfl⟩ := List.mem_map.mp h
  have := List.mem_range.mp hk
  exact ⟨rfl, rfl, Nat.le_add_right _ _, show startId + k < startId + n by omega, rfl⟩

/-- Well-formedness of an id-stamped lot population: distinct ids, all below
the next fresh id. -/
def LotsWF2 (lots : List Lot) (nid : ℕ) : Prop :=
  ((lots.map Lot.id).Nodup) ∧ ∀ l ∈ lots, l.id < nid

theorem LotsWF2.append_mkLots {lots : List Lot} {nid : ℕ} (h : LotsWF2 lots nid)
    (jobId n : ℕ) (s : Station) (a : ℚ) :
    LotsWF2 (lots ++ mkLots jobId nid n s a) (nid + n) := by
  obtain ⟨hnd, hlt⟩ := h
  constructor
  · rw [List.map_append, List.nodup_append]
    refine ⟨hnd, ?_, ?_⟩
    · rw [mkLots_ids]
      refine List.Nodup.map ?_ (List.nodup_range n)
      intro x y hxy
      simpa using hxy
    · intro i hi hi'
      obtain ⟨l, hl, rfl⟩ := List.mem_map.mp hi
      rw [mkLots_ids] at hi'
      obtain ⟨k, hk, hk'⟩ := List.mem_map.mp hi'
      have h1 := hlt l hl
      have h2 : nid + k = l.id := hk'
      omega
  · intro l hl
    rcases List.mem_append.mp hl with h' | h'
    · have := hlt l h'; omega
    · have := (mem_mkLots h').2.2.2.1; omega

theorem LotsWF2.mono {lots : List Lot} {nid nid' : ℕ} (h : LotsWF2 lots nid)
    (hle : nid ≤ nid') : LotsWF2 lots nid' :=
  ⟨h.1, fun l hl => lt_of_lt_of_le (h.2 l hl) hle⟩

/-! ## Per-lot analysis of the stage transitions -/

@[simp] theorem Lot.finish_id (l : Lot) : (Lot.finish l).id = l.id := rfl

@[simp] theorem Lot.finish_jobId (l : Lot) : (Lot.finish l).jobId = l.jobId := rfl

@[simp] theorem Lot.finish_station (l : Lot) : (Lot.finish l).currentStation = Station.complete := rfl

@[simp] theorem Lot.advanceTo_id (l : Lot) (s : Station) (day : ℚ) :
    (Lot.advanceTo l s day).id = l.id := rfl

@[simp] theorem Lot.advanceTo_jobId (l : Lot) (s : Station) (day : ℚ) :
    (Lot.advanceTo l s day).jobId = l.jobId := rfl

@[simp] theorem Lot.advanceTo_station (l : Lot) (s : Station) (day : ℚ) :
    (Lot.advanceTo l s day).currentStation = s := rfl

/-- Case analysis of the day's per-lot move on a well-formed population:
a lot is either untouched, or it is the front of exactly one station queue
and advances to that station's successor; the completing case is flagged by
membership in the chosen second-pass ids. -/
theorem psMove_cases {cfg : DayConfig} {st : SimState} {day : ℚ}
    (hnd : (st.lots.map Lot.id).Nodup) {l : Lot} (hl : l ∈ st.lots) :
    (l.id ∉ (psChosen4 cfg st).map Lot.id ∧
      (psMove cfg st day l = l ∨
        (l.currentStation = Station.s3 ∧ psMove cfg st day l = l.advanceTo Station.s4 day) ∨
        (l.currentStation = Station.s2 ∧ psMove cfg st day l = l.advanceTo Station.s3 day) ∨
        (l.currentStation = Station.s1 ∧ psMove cfg st day l = l.advanceTo Station.s2 day))) ∨
    (l.id ∈ (psChosen4 cfg st).map Lot.id ∧ l.currentStation = Station.s4 ∧
      psMove cfg st day l = l.finish) := by
  have m4 : l.id ∈ (psChosen4 cfg st).map Lot.id → l.currentStation = Station.s4 :=
    fun h => station_of_id_mem_chosen hnd hl h
  have m3 : l.id ∈ (psChosen3 cfg st).map Lot.id → l.currentStation = Station.s3 :=
    fun h => station_of_id_mem_chosen hnd hl h
  have m2 : l.id ∈ (psChosen2 cfg st).map Lot.id → l.currentStation = Station.s2 :=
    fun h => station_of_id_mem_chosen hnd hl h
  have m1 : l.id ∈ (psChosen1 cfg st).map Lot.id → l.currentStation = Station.s1 :=
    fun h => station_of_id_mem_chosen hnd hl h
  by_cases h4 : l.id ∈ (psChosen4 cfg st).map Lot.id
  · right
    have hs := m4 h4
    have n3 : ¬ (Lot.finish l).id ∈ (psChosen3 cfg st).map Lot.id := by
      intro hm
      have hx := m3 (by simpa using hm)
      rw [hs] at hx
      exact Station.noConfusion hx
    have n2 : ¬ (Lot.finish l).id ∈ (psChosen2 cfg st).map Lot.id := by
      intro hm
      have hx := m2 (by simpa using hm)
      rw [hs] at hx
      exact Station.noConfusion hx
    have n1 : ¬ (Lot.finish l).id ∈ (psChosen1 cfg st).map Lot.id := by
      intro hm
      have hx := m1 (by simpa using hm)
      rw [hs] at hx
      exact Station.noConfusion hx
    refine ⟨h4, hs, ?_⟩
    simp only [psMove]
    rw [if_pos h4, if_neg n3, if_neg n2, if_neg n1]
  · left
    refine ⟨h4, ?_⟩
    by_cases h3 : l.id ∈ (psChosen3 cfg st).map Lot.id
    · have hs := m3 h3
      have n2 : ¬ (Lot.advanceTo l Station.s4 day).id ∈ (psChosen2 cfg st).map Lot.id := by
        intro hm
        have hx := m2 (by simpa using hm)
        rw [hs] at hx
        exact Station.noConfusion hx
      have n1 : ¬ (Lot.advanceTo l Station.s4 day).id ∈ (psChosen1 cfg st).map Lot.id := by
        intro hm
        have hx := m1 (by simpa using hm)
        rw [hs] at hx
        exact Station.noConfusion hx
      refine Or.inr (Or.inl ⟨hs, ?_⟩)
      simp only [psMove]
      rw [if_neg h4, if_pos h3, if_neg n2, if_neg n1]
    · by_cases h2 : l.id ∈ (psChosen2 cfg st).map Lot.id
      · have hs := m2 h2
        have n1 : ¬ (Lot.advanceTo l Station.s3 day).id ∈ (psChosen1 cfg st).map Lot.id := by
          intro hm
          have hx := m1 (by simpa using hm)
          rw [hs] at hx
          exact Station.noConfusion hx
        refine Or.inr (Or.inr (Or.inl ⟨hs, ?_⟩))
        simp only [psMove]
        rw [if_neg h4, if_neg h3, if_pos h2, if_neg n1]
      · by_cases h1 : l.id ∈ (psChosen1 cfg st).map Lot.id
        · have hs := m1 h1
          refine Or.inr (Or.inr (Or.inr ⟨hs, ?_⟩))
          simp only [psMove]
          rw [if_neg h4, if_neg h3, if_neg h2, if_pos h1]
        · refine Or.inl ?_
          simp only [psMove]
          rw [if_neg h4, if_neg h3, if_neg h2, if_neg h1]

/-- The per-lot move always preserves the lot id. -/
theorem psMove_id (cfg : DayConfig) (st : SimState) (day : ℚ) (l : Lot) :
    (psMove cfg st day l).id = l.id := by
  simp only [psMove]
  split_ifs <;> rfl

/-- The per-lot move always preserves the owning job. -/
theorem psMove_jobId (cfg : DayConfig) (st : SimState) (day : ℚ) (l : Lot) :
    (psMove cfg st day l).jobId = l.jobId := by
  simp only [psMove]
  split_ifs <;> rfl

/-- A lot either keeps its station or advances to the successor station. -/
theorem psMove_station {cfg : DayConfig} {st : SimState} {day : ℚ}
    (hnd : (st.lots.map Lot.id).Nodup) {l : Lot} (hl : l ∈ st.lots) :
    (psMove cfg st day l).currentStation = l.currentStation ∨
      (psMove cfg st day l).currentStation = l.currentStation.next := by
  rcases @psMove_cases cfg st day hnd l hl with ⟨-, h | ⟨hs, h⟩ | ⟨hs, h⟩ | ⟨hs, h⟩⟩ | ⟨-, hs, h⟩
  · left; rw [h]
  · right; rw [h, hs]; rfl
  · right; rw [h, hs]; rfl
  · right; rw [h, hs]; rfl
  · right; rw [h, hs]; rfl

/-! ## Phase specifications -/

theorem materialArrival_lots (cfg : DayConfig) (day : ℚ) (st : SimState) :
    (materialArrival cfg day st).lots = st.lots := by
  rw [materialArrival]; split_ifs <;> rfl

theorem materialArrival_jobs (cfg : DayConfig) (day : ℚ) (st : SimState) :
    (materialArrival cfg day st).jobs = st.jobs := by
  rw [materialArrival]; split_ifs <;> rfl

theorem materialArrival_nextLotId (cfg : DayConfig) (day : ℚ) (st : SimState) :
    (materialArrival cfg day st).nextLotId = st.nextLotId := by
  rw [materialArrival]; split_ifs <;> rfl

theorem materialArrival_nextJobId (cfg : DayConfig) (day : ℚ) (st : SimState) :
    (materialArrival cfg day st).nextJobId = st.nextJobId := by
  rw [materialArrival]; split_ifs <;> rfl

theorem materialArrival_waiting (cfg : DayConfig) (day : ℚ) (st : SimState) :
    (materialArrival cfg day st).waitingForKits = st.waitingForKits := by
  rw [materialArrival]; split_ifs <;> rfl

theorem materialArrival_inventory (cfg : DayConfig) (day : ℚ) (st : SimState)
    (hq : 0 ≤ cfg.orderQuantity) (h : 0 ≤ st.kitsInventory) :
    0 ≤ (materialArrival cfg day st).kitsInventory := by
  rw [materialArrival]
  split_ifs with hc
  · simp only
    linarith
  · exact h

/-- Field-preservation facts of a job-record transform. -/
def JobShape (g : Job → Job) : Prop :=
  ∀ j : Job, (g j).id = j.id ∧ (g j).completedLots = j.completedLots ∧
    (g j).totalLots = j.totalLots ∧ (g j).completionDay = j.completionDay

/-- Specification of the kit-starved release loop: it appends fresh Stage-1
lots owned by released waiting jobs, rewrites only `startDay` on the job
records, leaves a suffix of the waiting queue, keeps `nextJobId`, preserves
lot well-formedness and inventory non-negativity. -/
theorem releaseWaitingAux_spec (lpj : ℕ) (day : ℚ) :
    ∀ (w : List ℕ) (st : SimState),
      ∃ (extra : List Lot) (g : Job → Job),
        (releaseWaitingAux lpj day w st).lots = st.lots ++ extra ∧
        (∀ l ∈ extra, l.currentStation = Station.s1 ∧ st.nextLotId ≤ l.id ∧ l.jobId ∈ w ∧
          l.arrivalAtCurrentStation = day) ∧
        (releaseWaitingAux lpj day w st).jobs = st.jobs.map g ∧ JobShape g ∧
        (releaseWaitingAux lpj day w st).waitingForKits.IsSuffix w ∧
        (releaseWaitingAux lpj day w st).nextJobId = st.nextJobId ∧
        st.nextLotId ≤ (releaseWaitingAux lpj day w st).nextLotId ∧
        (LotsWF2 st.lots st.nextLotId →
          LotsWF2 (releaseWaitingAux lpj day w st).lots (releaseWaitingAux lpj day w st).nextLotId) ∧
        (0 ≤ st.kitsInventory → 0 ≤ (releaseWaitingAux lpj day w st).kitsInventory) := by
  intro w
  induction w with
  | nil =>
    intro st
    refine ⟨[], id, by simp [releaseWaitingAux], by simp, by simp [releaseWaitingAux], ?_, ?_, rfl, le_refl _, ?_, ?_⟩
    · intro j; exact ⟨rfl, rfl, rfl, rfl⟩
    · exact List.nil_suffix
    · intro h; exact h
    · intro h; exact h
  | cons jid rest ih =>
    intro st
    rw [releaseWaitingAux]
    split_ifs with hinv
    · set st' : SimState :=
        { st with
          jobs := st.jobs.map fun j => if j.id = jid then { j with startDay := day } else j
          kitsInventory := st.kitsInventory - 60
          lots := st.lots ++ mkLots jid st.nextLotId lpj Station.s1 day
          nextLotId := st.nextLotId + lpj } with hst'
      obtain ⟨extra', g', hlots, hextra, hjobs, hg, hsuf, hnj, hnl, hwf, hki⟩ := ih st'
      refine ⟨mkLots jid st.nextLotId lpj Station.s1 day ++ extra',
        g' ∘ (fun j => if j.id = jid then { j with startDay := day } else j), ?_, ?_, ?_, ?_, ?_, ?_, ?_, ?_, ?_⟩
      · rw [hlots]
        simp [hst', List.append_assoc]
      · intro l hl
        rcases List.mem_append.mp hl with h' | h'
        · obtain ⟨hj, hs, hle, hlt, ha⟩ := mem_mkLots h'
          exact ⟨hs, hle, by rw [hj]; exact List.mem_cons_self _ _, ha⟩
        · obtain ⟨hs, hle, hjm, ha⟩ := hextra l h'
          exact ⟨hs, le_trans (Nat.le_add_right st.nextLotId lpj) hle, List.mem_cons_of_mem _ hjm, ha⟩
      · rw [hjobs]
        simp [hst', List.map_map]
      · intro j
        have hX := hg (if j.id = jid then { j with startDay := day } else j)
        refine ⟨?_, ?_, ?_, ?_⟩ <;> simp only [Function.comp]
        · rw [hX.1]; split_ifs <;> rfl
        · rw [hX.2.1]; split_ifs <;> rfl
        · rw [hX.2.2.1]; split_ifs <;> rfl
        · rw [hX.2.2.2]; split_ifs <;> rfl
      · exact hsuf.trans (List.suffix_cons jid rest)
      · exact hnj
      · refine le_trans ?_ hnl
        simp [hst']
      · intro h
        refine hwf ?_
        have := h.append_mkLots jid lpj Station.s1 day
        simpa [hst'] using this
      · intro h
        refine hki ?_
        simp only [hst']
        linarith
    · refine ⟨[], id, by simp, by simp, by simp, ?_, ?_, rfl, le_refl _, ?_, ?_⟩
      · intro j; exact ⟨rfl, rfl, rfl, rfl⟩
      · exact List.suffix_refl _
      · intro h; exact h
      · intro h; exact h

/-- State well-formedness threaded through the run: distinct ids below the
fresh-id counters, on lots, jobs and the waiting queue. -/
def StateWF (st : SimState) : Prop :=
  LotsWF2 st.lots st.nextLotId ∧
  (st.jobs.map Job.id).Nodup ∧
  (∀ j ∈ st.jobs, j.id < st.nextJobId) ∧
  (∀ l ∈ st.lots, l.jobId < st.nextJobId) ∧
  st.waitingForKits.Nodup ∧
  (∀ jid ∈ st.waitingForKits, jid < st.nextJobId)

/-- Well-formedness of the mid-day pair (state, pending new lots). -/
def PairWF (x : SimState × List Lot) : Prop :=
  LotsWF2 (x.1.lots ++ x.2) x.1.nextLotId ∧
  (x.1.jobs.map Job.id).Nodup ∧
  (∀ j ∈ x.1.jobs, j.id < x.1.nextJobId) ∧
  (∀ l ∈ x.1.lots ++ x.2, l.jobId < x.1.nextJobId) ∧
  x.1.waitingForKits.Nodup ∧
  (∀ jid ∈ x.1.waitingForKits, jid < x.1.nextJobId)

/-- One arrival: relational specification (lots untouched, one job appended,
pending lots and waiting ids grow by fresh entries, inventory stays
non-negative). -/
theorem arrivalStep_spec (cfg : DayConfig) (day : ℚ) (a : ℕ) (acc : SimState × List Lot)
    (j : ℕ) :
    (arrivalStep cfg day a acc j).1.lots = acc.1.lots ∧
    (∃ nj : Job, (arrivalStep cfg day a acc j).1.jobs = acc.1.jobs ++ [nj] ∧
      nj.id = acc.1.nextJobId ∧ nj.completedLots = 0 ∧ nj.completionDay = none ∧
      nj.totalLots = cfg.lotsPerJob) ∧
    (arrivalStep cfg day a acc j).1.nextJobId = acc.1.nextJobId + 1 ∧
    acc.1.nextLotId ≤ (arrivalStep cfg day a acc j).1.nextLotId ∧
    (∃ extraP : List Lot, (arrivalStep cfg day a acc j).2 = acc.2 ++ extraP ∧
      ∀ l ∈ extraP, l.currentStation = Station.s1 ∧ acc.1.nextLotId ≤ l.id ∧
        l.jobId = acc.1.nextJobId) ∧
    (∃ extraW : List ℕ, (arrivalStep cfg day a acc j).1.waitingForKits =
        acc.1.waitingForKits ++ extraW ∧ ∀ jid ∈ extraW, jid = acc.1.nextJobId) ∧
    (0 ≤ acc.1.kitsInventory → 0 ≤ (arrivalStep cfg day a acc j).1.kitsInventory) := by
  rw [arrivalStep]
  split_ifs with hinv
  · refine ⟨rfl, ⟨_, rfl, rfl, rfl, rfl, rfl⟩, rfl, Nat.le_add_right _ _, ⟨_, rfl, ?_⟩,
      ⟨[], by simp, by simp⟩, ?_⟩
    · intro l hl
      obtain ⟨hj, hs, hle, hlt, ha⟩ := mem_mkLots hl
      exact ⟨hs, hle, hj⟩
    · intro h
      simp only
      linarith
  · exact ⟨rfl, ⟨_, rfl, rfl, rfl, rfl, rfl⟩, rfl, le_refl _, ⟨[], by simp, by simp⟩,
      ⟨_, rfl, fun jid hj => by simpa using hj⟩, fun h => h⟩

/-- One arrival preserves pair well-formedness. -/
theorem arrivalStep_pairWF (cfg : DayConfig) (day : ℚ) (a : ℕ) (acc : SimState × List Lot)
    (j : ℕ) (h : PairWF acc) : PairWF (arrivalStep cfg day a acc j) := by
  obtain ⟨hlwf, hjnd, hjlt, hlj, hwnd, hwlt⟩ := h
  rw [arrivalStep]
  split_ifs with hinv
  · refine ⟨?_, ?_, ?_, ?_, hwnd, ?_⟩
    · simp only
      have h2 := hlwf.append_mkLots acc.1.nextJobId cfg.lotsPerJob Station.s1
        (day + (j : ℚ) / (a : ℚ))
      rw [List.append_assoc] at h2
      exact h2
    · simp only [List.map_append, List.nodup_append, List.map_cons, List.map_nil]
      refine ⟨hjnd, List.nodup_singleton _, ?_⟩
      intro i hi hi'
      obtain ⟨jb, hjb, rfl⟩ := List.mem_map.mp hi
      have := hjlt jb hjb
      simp only [List.mem_singleton] at hi'
      omega
    · intro jb hjb
      rcases List.mem_append.mp hjb with h' | h'
      · have := hjlt jb h'
        simp only
        omega
      · simp only [List.mem_singleton] at h'
        rw [h']
        simp only
        omega
    · intro l hl
      simp only
      rw [← List.append_assoc] at hl
      rcases List.mem_append.mp hl with h' | h'
      · have := hlj l h'
        omega
      · have := (mem_mkLots h').1
        simp only at this
        omega
    · intro jid hj
      have := hwlt jid hj
      simp only
      omega
  · refine ⟨?_, ?_, ?_, ?_, ?_, ?_⟩
    · exact hlwf
    · simp only [List.map_append, List.nodup_append, List.map_cons, List.map_nil]
      refine ⟨hjnd, List.nodup_singleton _, ?_⟩
      intro i hi hi'
      obtain ⟨jb, hjb, rfl⟩ := List.mem_map.mp hi
      have := hjlt jb hjb
      simp only [List.mem_singleton] at hi'
      omega
    · intro jb hjb
      rcases List.mem_append.mp hjb with h' | h'
      · have := hjlt jb h'
        simp only
        omega
      · simp only [List.mem_singleton] at h'
        rw [h']
        simp only
        omega
    · intro l hl
      have := hlj l hl
      simp only
      omega
    · simp only [List.nodup_append, List.nodup_singleton]
      refine ⟨hwnd, trivial, ?_⟩
      intro i hi hi'
      have := hwlt i hi
      simp only [List.mem_singleton] at hi'
      omega
    · intro jid hj
      simp only at hj ⊢
      rcases List.mem_append.mp hj with h' | h'
      · have := hwlt jid h'
        omega
      · simp only [List.mem_singleton] at h'
        omega

/-- The whole arrival fold: relational specification relative to the
starting pair. -/
theorem foldl_arrivalStep_spec (cfg : DayConfig) (day : ℚ) (a : ℕ) :
    ∀ (js : List ℕ) (acc : SimState × List Lot),
      (js.foldl (arrivalStep cfg day a) acc).1.lots = acc.1.lots ∧
      (∃ newJobs : List Job, (js.foldl (arrivalStep cfg day a) acc).1.jobs =
          acc.1.jobs ++ newJobs ∧
        ∀ j' ∈ newJobs, acc.1.nextJobId ≤ j'.id ∧ j'.completedLots = 0 ∧
          j'.completionDay = none ∧ j'.totalLots = cfg.lotsPerJob) ∧
      (∃ extraW : List ℕ, (js.foldl (arrivalStep cfg day a) acc).1.waitingForKits =
          acc.1.waitingForKits ++ extraW ∧ ∀ jid ∈ extraW, acc.1.nextJobId ≤ jid) ∧
      (∃ extraP : List Lot, (js.foldl (arrivalStep cfg day a) acc).2 = acc.2 ++ extraP ∧
        ∀ l ∈ extraP, l.currentStation = Station.s1 ∧ acc.1.nextLotId ≤ l.id ∧
          acc.1.nextJobId ≤ l.jobId) ∧
      acc.1.nextLotId ≤ (js.foldl (arrivalStep cfg day a) acc).1.nextLotId ∧
      acc.1.nextJobId ≤ (js.foldl (arrivalStep cfg day a) acc).1.nextJobId ∧
      (0 ≤ acc.1.kitsInventory → 0 ≤ (js.foldl (arrivalStep cfg day a) acc).1.kitsInventory) := by
  intro js
  induction js with
  | nil =>
    intro acc
    exact ⟨rfl, ⟨[], by simp, by simp⟩, ⟨[], by simp, by simp⟩, ⟨[], by simp, by simp⟩,
      le_refl _, le_refl _, fun h => h⟩
  | cons j js ih =>
    intro acc
    obtain ⟨slots, ⟨nj, sjobs, hnjid, hnjc, hnjd, hnjt⟩, hsnj, hsnl, ⟨eP, hseP, heP⟩,
      ⟨eW, hseW, heW⟩, hski⟩ := arrivalStep_spec cfg day a acc j
    obtain ⟨ilots, ⟨newJobs, ijobs, hneww⟩, ⟨iW, hiW, hiWp⟩, ⟨iP, hiP, hiPp⟩, hinl, hinj, hiki⟩ :=
      ih (arrivalStep cfg day a acc j)
    rw [List.foldl_cons]
    refine ⟨by rw [ilots, slots], ⟨nj :: newJobs, ?_, ?_⟩, ⟨eW ++ iW, ?_, ?_⟩,
      ⟨eP ++ iP, ?_, ?_⟩, ?_, ?_, ?_⟩
    · rw [ijobs, sjobs]
      simp
    · intro j' hj'
      rcases List.mem_cons.mp hj' with h' | h'
      · rw [h']
        exact ⟨le_of_eq hnjid.symm, hnjc, hnjd, hnjt⟩
      · obtain ⟨h1, h2, h3, h4⟩ := hneww j' h'
        rw [hsnj] at h1
        exact ⟨by omega, h2, h3, h4⟩
    · rw [hiW, hseW]
      simp
    · intro jid hj
      rcases List.mem_append.mp hj with h' | h'
      · exact le_of_eq (heW jid h').symm
      · have := hiWp jid h'
        rw [hsnj] at this
        omega
    · rw [hiP, hseP]
      simp
    · intro l hl
      rcases List.mem_append.mp hl with h' | h'
      · obtain ⟨h1, h2, h3⟩ := heP l h'
        exact ⟨h1, h2, le_of_eq h3.symm⟩
      · obtain ⟨h1, h2, h3⟩ := hiPp l h'
        rw [hsnj] at h3
        exact ⟨h1, le_trans hsnl h2, by omega⟩
    · exact le_trans hsnl hinl
    · rw [hsnj] at hinj
      omega
    · intro h
      exact hiki (hski h)

/-- The whole arrival fold preserves pair well-formedness. -/
theorem foldl_arrivalStep_pairWF (cfg : DayConfig) (day : ℚ) (a : ℕ) :
    ∀ (js : List ℕ) (acc : SimState × List Lot),
      PairWF acc → PairWF (js.foldl (arrivalStep cfg day a) acc) := by
  intro js
  induction js with
  | nil => intro acc h; exact h
  | cons j js ih =>
    intro acc h
    rw [List.foldl_cons]
    exact ih _ (arrivalStep_pairWF cfg day a acc j h)

theorem find?_append_left {α : Type} {p : α → Bool} {l₁ : List α} {a : α}
    (h : l₁.find? p = some a) (l₂ : List α) : (l₁ ++ l₂).find? p = some a := by
  induction l₁ with
  | nil => simp at h
  | cons x xs ih =>
    by_cases hx : p x
    · rw [List.find?_cons_of_pos _ hx] at h
      rw [List.cons_append, List.find?_cons_of_pos _ hx]
      exact h
    · rw [List.find?_cons_of_neg _ (by simpa using hx)] at h
      rw [List.cons_append, List.find?_cons_of_neg _ (by simpa using hx)]
      exact ih h

theorem processStations_ids (cfg : DayConfig) (day : ℚ) (st : SimState) :
    (processStations cfg day st).lots.map Lot.id = st.lots.map Lot.id := by
  rw [processStations_lots, List.map_map]
  exact List.map_congr_left fun l _ => psMove_id cfg st day l

theorem bumpCompleted_ids (jobIds : List ℕ) (jobs : List Job) :
    (bumpCompleted jobIds jobs).map Job.id = jobs.map Job.id := by
  rw [bumpCompleted, List.map_map]
  rfl

theorem completeJobs_ids (day : ℚ) (jobs : List Job) :
    (completeJobs day jobs).1.map Job.id = jobs.map Job.id := by
  rw [completeJobs, List.map_map]
  refine List.map_congr_left fun j _ => ?_
  by_cases h : j.completionDay = none ∧ j.completedLots = j.totalLots <;> simp [h]

theorem financeStep_lots (cfg : DayConfig) (day rev : ℚ) (st : SimState) :
    (financeStep cfg day rev st).1.lots = st.lots := rfl

theorem financeStep_jobs (cfg : DayConfig) (day rev : ℚ) (st : SimState) :
    (financeStep cfg day rev st).1.jobs = st.jobs := rfl

theorem financeStep_waiting (cfg : DayConfig) (day rev : ℚ) (st : SimState) :
    (financeStep cfg day rev st).1.waitingForKits = st.waitingForKits := rfl

theorem financeStep_nextLotId (cfg : DayConfig) (day rev : ℚ) (st : SimState) :
    (financeStep cfg day rev st).1.nextLotId = st.nextLotId := rfl

theorem financeStep_nextJobId (cfg : DayConfig) (day rev : ℚ) (st : SimState) :
    (financeStep cfg day rev st).1.nextJobId = st.nextJobId := rfl

theorem financeStep_inventory (cfg : DayConfig) (day rev : ℚ) (st : SimState) :
    (financeStep cfg day rev st).1.kitsInventory = st.kitsInventory := rfl

/-- The day record and final state of `dayStep` in terms of the phases. -/
theorem dayStep_state (cfg : DayConfig) (a : ℕ) (day mc : ℚ) (st : SimState) :
    (dayStep cfg a day mc st).1 =
      (financeStep cfg day (completeJobs day (afterMoves cfg a day st).jobs).2.2
        { afterMoves cfg a day st with
          jobs := (completeJobs day (afterMoves cfg a day st).jobs).1 }).1 := rfl

theorem dayStep_lots (cfg : DayConfig) (a : ℕ) (day mc : ℚ) (st : SimState) :
    (dayStep cfg a day mc st).1.lots = (afterMoves cfg a day st).lots := rfl

theorem dayStep_jobs (cfg : DayConfig) (a : ℕ) (day mc : ℚ) (st : SimState) :
    (dayStep cfg a day mc st).1.jobs =
      (completeJobs day (afterMoves cfg a day st).jobs).1 := rfl

/-- Release phase preserves state well-formedness. -/
theorem releaseWaiting_wf (cfg : DayConfig) (day : ℚ) (st : SimState) (h : StateWF st) :
    StateWF (releaseWaiting cfg day st) := by
  obtain ⟨hlwf, hjnd, hjlt, hlj, hwnd, hwlt⟩ := h
  rw [releaseWaiting]
  obtain ⟨extra, g, hlots, hextra, hjobs, hg, hsuf, hnj, hnl, hwf, hki⟩ :=
    releaseWaitingAux_spec cfg.lotsPerJob day st.waitingForKits { st with waitingForKits := [] }
  refine ⟨hwf hlwf, ?_, ?_, ?_, ?_, ?_⟩
  · rw [hjobs]
    simp only
    have : (st.jobs.map g).map Job.id = st.jobs.map Job.id := by
      rw [List.map_map]
      exact List.map_congr_left fun j _ => (hg j).1
    rw [this]
    exact hjnd
  · intro j hj
    rw [hjobs] at hj
    simp only at hj
    obtain ⟨jb, hjb, rfl⟩ := List.mem_map.mp hj
    rw [(hg jb).1, hnj]
    exact hjlt jb hjb
  · intro l hl
    rw [hlots] at hl
    simp only at hl
    rw [hnj]
    rcases List.mem_append.mp hl with h' | h'
    · exact hlj l h'
    · obtain ⟨-, -, hjm, -⟩ := hextra l h'
      exact hwlt _ hjm
  · exact (hsuf.sublist).nodup hwnd
  · intro jid hj
    rw [hnj]
    exact hwlt jid (hsuf.sublist.mem hj)

/-- Start-of-day pair from a well-formed state. -/
theorem pairWF_of_stateWF {st : SimState} (h : StateWF st) : PairWF (st, []) := by
  obtain ⟨hlwf, hjnd, hjlt, hlj, hwnd, hwlt⟩ := h
  refine ⟨by simpa using hlwf, hjnd, hjlt, by simpa using hlj, hwnd, hwlt⟩

/-- Stage transitions preserve pair well-formedness. -/
theorem processStations_pairWF (cfg : DayConfig) (day : ℚ) (st : SimState) (pending : List Lot)
    (h : PairWF (st, pending)) : PairWF (processStations cfg day st, pending) := by
  obtain ⟨⟨hnd, hlt⟩, hjnd, hjlt, hlj, hwnd, hwlt⟩ := h
  simp only at hnd hlt hlj
  have hnd0 : (st.lots.map Lot.id).Nodup := by
    rw [List.map_append] at hnd
    exact hnd.of_append_left
  refine ⟨⟨?_, ?_⟩, ?_, ?_, ?_, hwnd, ?_⟩
  · simp only [List.map_append, processStations_ids]
    rw [List.map_append] at hnd
    exact hnd
  · intro l hl
    simp only at hl ⊢
    rcases List.mem_append.mp hl with h' | h'
    · rw [processStations_lots] at h'
      obtain ⟨x, hx, rfl⟩ := List.mem_map.mp h'
      rw [psMove_id]
      exact hlt x (List.mem_append_left _ hx)
    · exact hlt l (List.mem_append_right _ h')
  · simp only [processStations_jobs, bumpCompleted_ids]
    exact hjnd
  · intro j hj
    simp only [processStations_jobs, bumpCompleted] at hj
    obtain ⟨jb, hjb, rfl⟩ := List.mem_map.mp hj
    simp only
    exact hjlt jb hjb
  · intro l hl
    simp only at hl ⊢
    rcases List.mem_append.mp hl with h' | h'
    · rw [processStations_lots] at h'
      obtain ⟨x, hx, rfl⟩ := List.mem_map.mp h'
      rw [psMove_jobId]
      exact hlj x (List.mem_append_left _ hx)
    · exact hlj l (List.mem_append_right _ h')
  · exact hwlt

/-- State after the arrival phase. -/
theorem afterArrivals_pairWF (cfg : DayConfig) (a : ℕ) (day : ℚ) (st : SimState)
    (h : StateWF st) : PairWF (afterArrivals cfg a day st) := by
  rw [afterArrivals, processArrivals]
  refine foldl_arrivalStep_pairWF cfg day a _ _ (pairWF_of_stateWF ?_)
  rw [afterRelease]
  exact releaseWaiting_wf cfg day _
    (by
      have := materialArrival_lots cfg day st
      obtain ⟨h1, h2, h3, h4, h5, h6⟩ := h
      exact ⟨by rw [materialArrival_lots, materialArrival_nextLotId]; exact h1,
        by rw [materialArrival_jobs]; exact h2,
        by rw [materialArrival_jobs, materialArrival_nextJobId]; exact h3,
        by rw [materialArrival_lots, materialArrival_nextJobId]; exact h4,
        by rw [materialArrival_waiting]; exact h5,
        by rw [materialArrival_waiting, materialArrival_nextJobId]; exact h6⟩)

/-- End-of-transitions state (moves applied, new lots appended). -/
theorem afterMoves_wf (cfg : DayConfig) (a : ℕ) (day : ℚ) (st : SimState)
    (h : StateWF st) : StateWF (afterMoves cfg a day st) := by
  have hp := afterArrivals_pairWF cfg a day st h
  have hp2 := processStations_pairWF cfg day (afterArrivals cfg a day st).1
    (afterArrivals cfg a day st).2 (by simpa using hp)
  obtain ⟨hlwf, hjnd, hjlt, hlj, hwnd, hwlt⟩ := hp2
  rw [afterMoves]
  exact ⟨by simpa using hlwf, hjnd, hjlt, by simpa using hlj, hwnd, hwlt⟩

/-- A full day preserves state well-formedness. -/
theorem dayStep_wf (cfg : DayConfig) (a : ℕ) (day mc : ℚ) (st : SimState)
    (h : StateWF st) : StateWF (dayStep cfg a day mc st).1 := by
  have h5 := afterMoves_wf cfg a day st h
  obtain ⟨hlwf, hjnd, hjlt, hlj, hwnd, hwlt⟩ := h5
  rw [dayStep_state]
  refine ⟨?_, ?_, ?_, ?_, ?_, ?_⟩
  · rw [financeStep_lots, financeStep_nextLotId]
    exact hlwf
  · rw [financeStep_jobs]
    simp only [completeJobs_ids]
    exact hjnd
  · intro j hj
    rw [financeStep_jobs] at hj
    rw [financeStep_nextJobId]
    simp only [completeJobs] at hj
    obtain ⟨jb, hjb, rfl⟩ := List.mem_map.mp hj
    split_ifs <;> simpa using hjlt jb hjb
  · intro l hl
    rw [financeStep_lots] at hl
    rw [financeStep_nextJobId]
    exact hlj l hl
  · rw [financeStep_waiting]
    exact hwnd
  · intro jid hj
    rw [financeStep_waiting] at hj
    rw [financeStep_nextJobId]
    exact hwlt jid hj

/-! ## Reconstruction well-formedness -/

theorem mkLots_length (jobId startId n : ℕ) (s : Station) (a : ℚ) :
    (mkLots jobId startId n s a).length = n := by
  rw [mkLots, List.length_map, List.length_range]

theorem range_shift_concat {nid a b c : ℕ} (h : c = nid + a) :
    (List.range a).map (nid + ·) ++ (List.range b).map (c + ·) =
      (List.range (a + b)).map (nid + ·) := by
  rw [List.range_add, List.map_append, List.map_map]
  congr 1
  refine List.map_congr_left fun i _ => ?_
  simp only [Function.comp]
  omega

theorem range_shift_concat5 (nid a b c d e : ℕ) :
    (List.range a).map (nid + ·) ++ (List.range b).map ((nid + a) + ·) ++
      (List.range c).map ((nid + a + b) + ·) ++ (List.range d).map ((nid + a + b + c) + ·) ++
      (List.range e).map ((nid + a + b + c + d) + ·) =
      (List.range (a + b + c + d + e)).map (nid + ·) := by
  rw [@range_shift_concat nid a b (nid + a) rfl]
  rw [@range_shift_concat nid (a + b) c (nid + a + b) (by omega)]
  rw [@range_shift_concat nid (a + b + c) d (nid + a + b + c) (by omega)]
  rw [@range_shift_concat nid (a + b + c + d) e (nid + a + b + c + d) (by omega)]

theorem fillJobs_ids_eq (lpj : ℕ) (day : ℚ) :
    ∀ (js : List ℕ) (nid r4 r3 r2 r1 : ℕ),
      (fillJobs lpj day js nid r4 r3 r2 r1).map Lot.id =
        (List.range (fillJobs lpj day js nid r4 r3 r2 r1).length).map (nid + ·) := by
  intro js
  induction js with
  | nil => intro nid r4 r3 r2 r1; rfl
  | cons jid rest ih =>
    intro nid r4 r3 r2 r1
    rw [fillJobs]
    simp only [List.map_append, List.length_append, mkLots_ids, mkLots_length, ih]
    exact range_shift_concat5 _ _ _ _ _ _

theorem fillJobs_lotsWF {lpj : ℕ} {day : ℚ} {js : List ℕ} {nid r4 r3 r2 r1 : ℕ} :
    LotsWF2 (fillJobs lpj day js nid r4 r3 r2 r1)
      (nid + (fillJobs lpj day js nid r4 r3 r2 r1).length) := by
  constructor
  · rw [fillJobs_ids_eq]
    exact (List.nodup_range _).map fun x y hxy => by simpa using hxy
  · intro l hl
    have h1 : l.id ∈ (fillJobs lpj day js nid r4 r3 r2 r1).map Lot.id :=
      List.mem_map_of_mem Lot.id hl
    rw [fillJobs_ids_eq] at h1
    obtain ⟨k, hk, hk'⟩ := List.mem_map.mp h1
    have := List.mem_range.mp hk
    omega

theorem fillJobs_mem (lpj : ℕ) (day : ℚ) :
    ∀ (js : List ℕ) (nid r4 r3 r2 r1 : ℕ), ∀ l ∈ fillJobs lpj day js nid r4 r3 r2 r1,
      nid ≤ l.id ∧ l.jobId ∈ js ∧ l.currentStation ≠ Station.complete ∧
        l.arrivalAtCurrentStation = day := by
  intro js
  induction js with
  | nil => intro nid r4 r3 r2 r1 l hl; simp [fillJobs] at hl
  | cons jid rest ih =>
    intro nid r4 r3 r2 r1 l hl
    rw [fillJobs] at hl
    simp only [List.mem_append] at hl
    rcases hl with (((h | h) | h) | h) | h
    · obtain ⟨hj, hs, hle, hlt, ha⟩ := mem_mkLots h
      exact ⟨by omega, by rw [hj]; exact List.mem_cons_self _ _, by rw [hs]; simp, ha⟩
    · obtain ⟨hj, hs, hle, hlt, ha⟩ := mem_mkLots h
      exact ⟨by omega, by rw [hj]; exact List.mem_cons_self _ _, by rw [hs]; simp, ha⟩
    · obtain ⟨hj, hs, hle, hlt, ha⟩ := mem_mkLots h
      exact ⟨by omega, by rw [hj]; exact List.mem_cons_self _ _, by rw [hs]; simp, ha⟩
    · obtain ⟨hj, hs, hle, hlt, ha⟩ := mem_mkLots h
      exact ⟨by omega, by rw [hj]; exact List.mem_cons_self _ _, by rw [hs]; simp, ha⟩
    · obtain ⟨hle, hjm, hs, ha⟩ := ih _ _ _ _ _ l h
      exact ⟨by omega, List.mem_cons_of_mem _ hjm, hs, ha⟩

theorem projInitJobs_ids (p : ProjInputs) :
    (projInitJobs p).map Job.id = (List.range (projTotalJobs p)).map (· + 1) := by
  rw [projInitJobs, List.map_map]
  rfl

theorem projWaitJobs_ids (p : ProjInputs) :
    (projWaitJobs p).map Job.id = (List.range (projJobsWaiting p)).map (projTotalJobs p + 1 + ·) := by
  rw [projWaitJobs, List.map_map]
  rfl

/-- The reconstructed initial state of the projection hook is well formed. -/
theorem projInit_wf (p : ProjInputs) : StateWF (projInit p) := by
  refine ⟨?_, ?_, ?_, ?_, ?_, ?_⟩
  · rw [projInit]
    have h := @fillJobs_lotsWF (projLpj p) ((p.analysis.currentDay : ℚ))
      ((projInitJobs p).map Job.id) 1 (projLotsAtS4 p)
      (projLotsAtS3 p) (projLotsAtS2 p) (projLotsAtS1 p)
    refine h.mono ?_
    simp only [projInitLots]
    omega
  · rw [projInit]
    simp only [List.map_append, List.nodup_append, projInitJobs_ids, projWaitJobs_ids]
    refine ⟨(List.nodup_range _).map fun x y h => by omega,
      (List.nodup_range _).map fun x y h => by omega, ?_⟩
    intro i hi hi'
    obtain ⟨x, hx, rfl⟩ := List.mem_map.mp hi
    obtain ⟨y, hy, hxy⟩ := List.mem_map.mp hi'
    have := List.mem_range.mp hx
    omega
  · intro j hj
    rw [projInit] at hj ⊢
    simp only at hj ⊢
    rcases List.mem_append.mp hj with h' | h'
    · have : j.id ∈ (projInitJobs p).map Job.id := List.mem_map_of_mem Job.id h'
      rw [projInitJobs_ids] at this
      obtain ⟨x, hx, hx'⟩ := List.mem_map.mp this
      have := List.mem_range.mp hx
      omega
    · have : j.id ∈ (projWaitJobs p).map Job.id := List.mem_map_of_mem Job.id h'
      rw [projWaitJobs_ids] at this
      obtain ⟨x, hx, hx'⟩ := List.mem_map.mp this
      have := List.mem_range.mp hx
      omega
  · intro l hl
    rw [projInit] at hl ⊢
    simp only at hl ⊢
    obtain ⟨-, hjm, -, -⟩ := fillJobs_mem _ _ _ _ _ _ _ _ l hl
    rw [projInitJobs_ids] at hjm
    obtain ⟨x, hx, hx'⟩ := List.mem_map.mp hjm
    have := List.mem_range.mp hx
    omega
  · rw [projInit]
    simp only
    rw [projWaitJobs_ids]
    exact (List.nodup_range _).map fun x y h => by omega
  · intro jid hj
    rw [projInit] at hj ⊢
    simp only at hj ⊢
    rw [projWaitJobs_ids] at hj
    obtain ⟨x, hx, hx'⟩ := List.mem_map.mp hj
    have := List.mem_range.mp hx
    omega

theorem tlInitJobs_ids (t : TimelineInputs) :
    (tlInitJobs t).map Job.id = (List.range (tlTotalJobs t)).map (· + 1) := by
  rw [tlInitJobs, List.map_map]
  rfl

/-- The reconstructed initial state of the timeline driver is well formed. -/
theorem tlInit_wf (t : TimelineInputs) : StateWF (tlInit t) := by
  refine ⟨?_, ?_, ?_, ?_, ?_, ?_⟩
  · rw [tlInit]
    have h := @fillJobs_lotsWF (lotsPerJobOf t.initialSettings)
      ((t.analysis.currentDay : ℚ)) ((tlInitJobs t).map Job.id) 1
      (tlLotsAtS4 t) (tlLotsAtS3 t) (tlLotsAtS2 t) (tlLotsAtS1 t)
    refine h.mono ?_
    simp only [tlInitLots]
    omega
  · rw [tlInit]
    simp only [tlInitJobs_ids]
    exact (List.nodup_range _).map fun x y h => by omega
  · intro j hj
    rw [tlInit] at hj ⊢
    simp only at hj ⊢
    have : j.id ∈ (tlInitJobs t).map Job.id := List.mem_map_of_mem Job.id hj
    rw [tlInitJobs_ids] at this
    obtain ⟨x, hx, hx'⟩ := List.mem_map.mp this
    have := List.mem_range.mp hx
    omega
  · intro l hl
    rw [tlInit] at hl ⊢
    simp only at hl ⊢
    obtain ⟨-, hjm, -, -⟩ := fillJobs_mem _ _ _ _ _ _ _ _ l hl
    rw [tlInitJobs_ids] at hjm
    obtain ⟨x, hx, hx'⟩ := List.mem_map.mp hjm
    have := List.mem_range.mp hx
    omega
  · rw [tlInit]
    exact List.nodup_nil
  · intro jid hj
    rw [tlInit] at hj
    simp at hj

/-- Scheduled changes only touch the settings and the cash/debt scalars. -/
theorem applyChange_preserve (day : ℕ) (acc : Settings × SimState) (c : Change) :
    (applyChange day acc c).2.jobs = acc.2.jobs ∧
    (applyChange day acc c).2.lots = acc.2.lots ∧
    (applyChange day acc c).2.nextJobId = acc.2.nextJobId ∧
    (applyChange day acc c).2.nextLotId = acc.2.nextLotId ∧
    (applyChange day acc c).2.waitingForKits = acc.2.waitingForKits ∧
    (applyChange day acc c).2.kitsInventory = acc.2.kitsInventory := by
  rw [applyChange]
  split_ifs with h
  · cases c.effect <;>
      first
        | exact ⟨rfl, rfl, rfl, rfl, rfl, rfl⟩
        | (unfold payForChange; split_ifs <;> exact ⟨rfl, rfl, rfl, rfl, rfl, rfl⟩)
  · exact ⟨rfl, rfl, rfl, rfl, rfl, rfl⟩

theorem applyChanges_preserve (changes : List Change) (day : ℕ) :
    ∀ acc : Settings × SimState,
      (applyChanges changes day acc).2.jobs = acc.2.jobs ∧
      (applyChanges changes day acc).2.lots = acc.2.lots ∧
      (applyChanges changes day acc).2.nextJobId = acc.2.nextJobId ∧
      (applyChanges changes day acc).2.nextLotId = acc.2.nextLotId ∧
      (applyChanges changes day acc).2.waitingForKits = acc.2.waitingForKits ∧
      (applyChanges changes day acc).2.kitsInventory = acc.2.kitsInventory := by
  induction changes with
  | nil => intro acc; exact ⟨rfl, rfl, rfl, rfl, rfl, rfl⟩
  | cons c cs ih =>
    intro acc
    rw [applyChanges, List.foldl_cons]
    obtain ⟨i1, i2, i3, i4, i5, i6⟩ := ih (applyChange day acc c)
    obtain ⟨s1', s2', s3', s4', s5', s6'⟩ := applyChange_preserve day acc c
    rw [applyChanges] at i1 i2 i3 i4 i5 i6
    exact ⟨i1.trans s1', i2.trans s2', i3.trans s3', i4.trans s4', i5.trans s5', i6.trans s6'⟩

theorem applyChanges_wf (changes : List Change) (day : ℕ) (acc : Settings × SimState)
    (h : StateWF acc.2) : StateWF (applyChanges changes day acc).2 := by
  obtain ⟨h1, h2, h3, h4, h5, h6⟩ := h
  obtain ⟨p1, p2, p3, p4, p5, p6⟩ := applyChanges_preserve changes day acc
  exact ⟨by rw [p2, p4]; exact h1, by rw [p1]; exact h2, by rw [p1, p3]; exact h3,
    by rw [p2, p3]; exact h4, by rw [p5]; exact h5, by rw [p5, p3]; exact h6⟩

theorem projStates_succ (p : ProjInputs) (n : ℕ) :
    projStates p (n + 1) =
      (dayStep (projCfg p) (p.oracle (projDayAt p n)) ((projDayAt p n : ℕ) : ℚ)
        (if n = 0 then p.totalMachineCost else 0) (projStates p n)).1 := rfl

theorem timelineRun_succ (t : TimelineInputs) (n : ℕ) :
    timelineRun t (n + 1) =
      ((applyChanges t.changes (t.analysis.currentDay + n + 1) (timelineRun t n)).1,
        (dayStep (tlCfg t (applyChanges t.changes (t.analysis.currentDay + n + 1)
            (timelineRun t n)).1)
          (t.oracle (t.analysis.currentDay + n + 1)) ((t.analysis.currentDay + n + 1 : ℕ) : ℚ) 0
          (applyChanges t.changes (t.analysis.currentDay + n + 1) (timelineRun t n)).2).1) := rfl

/-- Every state of the projection run is well formed. -/
theorem proj_wf (p : ProjInputs) : ∀ n, StateWF (projStates p n) := by
  intro n
  induction n with
  | zero => exact projInit_wf p
  | succ n ih =>
    rw [projStates_succ]
    exact dayStep_wf _ _ _ _ _ ih

/-- Every state of the timeline run is well formed. -/
theorem timeline_wf (t : TimelineInputs) : ∀ n, StateWF (timelineRun t n).2 := by
  intro n
  induction n with
  | zero => exact tlInit_wf t
  | succ n ih =>
    rw [timelineRun_succ]
    exact dayStep_wf _ _ _ 0 _ (applyChanges_wf _ _ _ ih)

/-! ## Per-day lot transport -/

/-- Lookup of a lot by id (unique on well-formed states). -/
def lotById (i : ℕ) (st : SimState) : Option Lot :=
  st.lots.find? fun l => decide (l.id = i)

/-- Lookup of a job by id (unique on well-formed states). -/
def jobById (i : ℕ) (st : SimState) : Option Job :=
  st.jobs.find? fun j => decide (j.id = i)

theorem materialArrival_wf (cfg : DayConfig) (day : ℚ) (st : SimState) (h : StateWF st) :
    StateWF (materialArrival cfg day st) := by
  obtain ⟨h1, h2, h3, h4, h5, h6⟩ := h
  exact ⟨by rw [materialArrival_lots, materialArrival_nextLotId]; exact h1,
    by rw [materialArrival_jobs]; exact h2,
    by rw [materialArrival_jobs, materialArrival_nextJobId]; exact h3,
    by rw [materialArrival_lots, materialArrival_nextJobId]; exact h4,
    by rw [materialArrival_waiting]; exact h5,
    by rw [materialArrival_waiting, materialArrival_nextJobId]; exact h6⟩

theorem afterRelease_wf (cfg : DayConfig) (day : ℚ) (st : SimState) (h : StateWF st) :
    StateWF (afterRelease cfg day st) :=
  releaseWaiting_wf cfg day _ (materialArrival_wf cfg day st h)

theorem afterArrivals_state_lots (cfg : DayConfig) (a : ℕ) (day : ℚ) (st : SimState) :
    (afterArrivals cfg a day st).1.lots = (afterRelease cfg day st).lots := by
  rw [afterArrivals, processArrivals]
  exact (foldl_arrivalStep_spec cfg day a (List.range a) ((afterRelease cfg day st), [])).1

theorem afterArrivals_pending (cfg : DayConfig) (a : ℕ) (day : ℚ) (st : SimState) :
    ∀ l ∈ (afterArrivals cfg a day st).2, l.currentStation = Station.s1 ∧
      (afterRelease cfg day st).nextLotId ≤ l.id := by
  intro l hl
  rw [afterArrivals, processArrivals] at hl
  obtain ⟨-, -, -, ⟨extraP, hP, hPp⟩, -, -, -⟩ :=
    foldl_arrivalStep_spec cfg day a (List.range a) ((afterRelease cfg day st), [])
  rw [hP] at hl
  simp only [List.nil_append] at hl
  obtain ⟨h1, h2, -⟩ := hPp l hl
  exact ⟨h1, h2⟩

/-- The lots of a day's final state: the pre-arrival population transformed
by the day's per-lot move, followed by the day's new arrival lots. -/
theorem dayStep_lots_eq (cfg : DayConfig) (a : ℕ) (day mc : ℚ) (st : SimState) :
    (dayStep cfg a day mc st).1.lots =
      (afterArrivals cfg a day st).1.lots.map
          (psMove cfg (afterArrivals cfg a day st).1 day) ++
        (afterArrivals cfg a day st).2 := by
  rw [dayStep_lots, afterMoves]
  simp only
  rw [processStations_lots]

/-- Transport of a lot through one full simulated day: it stays present, and
its station either stays or advances one step. -/
theorem dayStep_lot_transport (cfg : DayConfig) (a : ℕ) (day mc : ℚ) (st : SimState)
    (h : StateWF st) {i : ℕ} {l : Lot} (hf : lotById i st = some l) :
    ∃ l', lotById i (dayStep cfg a day mc st).1 = some l' ∧
      (l'.currentStation = l.currentStation ∨ l'.currentStation = l.currentStation.next) := by
  have hrel := afterRelease_wf cfg day st h
  obtain ⟨extra, g, hlots, hextra, hjobs, hg, hsuf, hnj, hnl, hwf, hki⟩ :=
    releaseWaitingAux_spec cfg.lotsPerJob day (materialArrival cfg day st).waitingForKits
      { materialArrival cfg day st with waitingForKits := [] }
  have hf1 : (afterRelease cfg day st).lots.find? (fun l => decide (l.id = i)) = some l := by
    rw [afterRelease, releaseWaiting, hlots]
    simp only
    refine find?_append_left ?_ extra
    rw [materialArrival_lots]
    exact hf
  have hfB : (afterArrivals cfg a day st).1.lots.find? (fun l => decide (l.id = i)) = some l := by
    rw [afterArrivals_state_lots]
    exact hf1
  have hmem : l ∈ (afterArrivals cfg a day st).1.lots := List.mem_of_find?_eq_some hfB
  have hndB : ((afterArrivals cfg a day st).1.lots.map Lot.id).Nodup := by
    have hp := afterArrivals_pairWF cfg a day st h
    obtain ⟨⟨hnd, -⟩, -⟩ := hp
    rw [List.map_append] at hnd
    exact hnd.of_append_left
  refine ⟨psMove cfg (afterArrivals cfg a day st).1 day l, ?_, ?_⟩
  · rw [lotById, dayStep_lots_eq]
    refine find?_append_left ?_ _
    rw [find?_map_eq _ _ (fun x => by rw [psMove_id]), hfB]
    rfl
  · exact psMove_station hndB hmem

/-- Any lot present at the end of a day whose id was not yet allocated after
the release phase is one of the day's admitted-arrival lots, and sits at
Stage 1. -/
theorem dayStep_new_lots (cfg : DayConfig) (a : ℕ) (day mc : ℚ) (st : SimState)
    (h : StateWF st) :
    ∀ l' ∈ (dayStep cfg a day mc st).1.lots,
      (afterRelease cfg day st).nextLotId ≤ l'.id → l'.currentStation = Station.s1 := by
  intro l' hl' hid
  rw [dayStep_lots_eq] at hl'
  rcases List.mem_append.mp hl' with h' | h'
  · obtain ⟨x, hx, rfl⟩ := List.mem_map.mp h'
    rw [afterArrivals_state_lots] at hx
    have hrel := afterRelease_wf cfg day st h
    obtain ⟨⟨-, hlt⟩, -⟩ := hrel
    have := hlt x hx
    rw [psMove_id] at hid
    omega
  · exact (afterArrivals_pending cfg a day st l' h').1

/-- Ranks only go up along the successor relation. -/
theorem Station.rank_next (s : Station) : s.rank ≤ s.next.rank := by
  cases s <;> simp [Station.rank, Station.next]

/-- Inventory stays non-negative through one full day (the order quantity is
clamped non-negative by both engines). -/
theorem dayStep_inventory (cfg : DayConfig) (a : ℕ) (day mc : ℚ) (st : SimState)
    (hq : 0 ≤ cfg.orderQuantity) (h : 0 ≤ st.kitsInventory) :
    0 ≤ (dayStep cfg a day mc st).1.kitsInventory := by
  have h0 : 0 ≤ (materialArrival cfg day st).kitsInventory :=
    materialArrival_inventory cfg day st hq h
  obtain ⟨extra, g, hlots, hextra, hjobs, hg, hsuf, hnj, hnl, hwf, hki⟩ :=
    releaseWaitingAux_spec cfg.lotsPerJob day (materialArrival cfg day st).waitingForKits
      { materialArrival cfg day st with waitingForKits := [] }
  have h1 : 0 ≤ (afterRelease cfg day st).kitsInventory := by
    rw [afterRelease, releaseWaiting]
    exact hki h0
  have h2 : 0 ≤ (afterArrivals cfg a day st).1.kitsInventory := by
    rw [afterArrivals, processArrivals]
    exact (foldl_arrivalStep_spec cfg day a (List.range a)
      ((afterRelease cfg day st), [])).2.2.2.2.2.2 h1
  exact h2

/-- A concrete small projection input: no historical queues, one kit-starved
job, exactly 60 kits on hand, no arrivals.  The reconstruction synthesises
4 jobs of 3 lots (pipeline buffers), plus waiting job 5; on day 101 the
waiting job is released and its 3 freshly created lots (ids 13–15) are
processed Stage 1 → Stage 2 the same day. -/
def projInputsSmall : ProjInputs :=
  { analysis :=
      { currentDay := 100
        avgLeadTime := 2
        debt := 0
        cash := 100
        avgQueuedJobs := 1
        avgQueue1 := 0
        avgQueue2 := 0
        avgQueue3 := 0 }
    avgJobsPerDay := 1
    totalMachineCost := 0
    upfrontFee := 0
    newDebt := 0
    settings :=
      { lotSize := 20
        contract := 1
        station1Machines := 1
        station2Machines := 1
        station3Machines := 1
        materialReorderPoint := 0
        materialOrderQty := 0 }
    inventory := 60
    orderInTransit := false
    orderArrivalDay := 0
    oracle := fun _ => 0
    cashRate := 0
    debtRate := 0 }

/-! ## Claims about the local computations (revenue, Stage-2 allocation,
debt paydown, WIP ceiling, reconstruction split, arrival determinism) -/

/-- C1: for every contract (promised `p`, maximum `m`, face revenue `R`) the
revenue credited at completion with lead time `L` is `R` when `L ≤ p`,
`R * (m - L) / (m - p)` when `p < L < m`, and `0` when `L ≥ m` (given
`p < m`, as in all three tiers); the tier table is
(7, 14, 750), (1, 5, 1000), (0.5, 1, 1250); and for tier 1,
`Revenue(7) = 750`, `Revenue(14) = 0`, `Revenue(10.5) = 375`. -/
theorem claim_C1_contract_revenue_schedule :
    (∀ (c : Contract) (L : ℚ),
        (L ≤ c.promised → contractRevenue c L = c.revenue) ∧
        (c.promised < L → L < c.max →
          contractRevenue c L = c.revenue * ((c.max - L) / (c.max - c.promised))) ∧
        (c.promised < c.max → c.max ≤ L → contractRevenue c L = 0)) ∧
    contracts 1 = ⟨7, 14, 750⟩ ∧ contracts 2 = ⟨1, 5, 1000⟩ ∧
    contracts 3 = ⟨1/2, 1, 1250⟩ ∧
    contractRevenue (contracts 1) 7 = 750 ∧
    contractRevenue (contracts 1) 14 = 0 ∧
    contractRevenue (contracts 1) (21/2) = 375 := by
  refine ⟨fun c L => ⟨fun h => ?_, fun h1 h2 => ?_, fun hpm h => ?_⟩, ?_, ?_, ?_, ?_, ?_, ?_⟩
  · rw [contractRevenue, if_pos h]
  · rw [contractRevenue, if_neg (not_le.mpr h1), if_pos h2]
  · rw [contractRevenue, if_neg (by linarith), if_neg (not_lt.mpr h)]
  · rfl
  · rfl
  · rfl
  · norm_num [contractRevenue, contracts]
  · norm_num [contractRevenue, contracts]
  · norm_num [contractRevenue, contracts]

/-- Witness for C1 at tier 1 and the midpoint lead time 10.5. -/
theorem claim_C1_witness :
    (7 : ℚ) < 21/2 ∧ (21/2 : ℚ) < 14 ∧
      contractRevenue ⟨7, 14, 750⟩ (21/2) = 750 * ((14 - 21/2) / ((14 : ℚ) - 7)) :=
  ⟨by norm_num, by norm_num,
    (claim_C1_contract_revenue_schedule.1 ⟨7, 14, 750⟩ (21/2)).2.1 (by norm_num) (by norm_num)⟩

/-- C2: every day, the Stage-2 lots processed for each pass equal
`min(queue, floor(machines2 * 24 * f / perLotTime))` where `f` is that
pass's share of the total Stage-2 demand, and both are zero when the
total demand is zero.  (`processStations` invokes `stage2Alloc` on the day's
snapshot queue lengths, so this covers every simulated day of both
engines.) -/
theorem claim_C2_stage2_proportional_allocation :
    ∀ (q2 q4 machines2 : ℕ) (s2 s4 : ℚ),
      (q2 + q4 ≠ 0 →
        stage2Alloc q2 q4 machines2 s2 s4 =
          (min q2 (floorCap ((machines2 : ℚ) * 24 * ((q2 : ℚ) / ((q2 : ℚ) + (q4 : ℚ))) / s2)),
            min q4 (floorCap ((machines2 : ℚ) * 24 * ((q4 : ℚ) / ((q2 : ℚ) + (q4 : ℚ))) / s4)))) ∧
      (q2 + q4 = 0 → stage2Alloc q2 q4 machines2 s2 s4 = (0, 0)) := by
  intro q2 q4 machines2 s2 s4
  constructor
  · intro h
    rw [stage2Alloc, if_neg h]
  · intro h
    rw [stage2Alloc, if_pos h]

/-- Witness for C2 on a concrete day with 3 first-pass and 1 second-pass
lots, one Stage-2 machine, and the 20-kit processing times. -/
theorem claim_C2_witness :
    3 + 1 ≠ 0 ∧
      stage2Alloc 3 1 1 (47/2400) (40/2400) =
        (min 3 (floorCap ((1 : ℚ) * 24 * (((3 : ℕ) : ℚ) / (((3 : ℕ) : ℚ) + ((1 : ℕ) : ℚ))) / (47/2400))),
          min 1 (floorCap ((1 : ℚ) * 24 * (((1 : ℕ) : ℚ) / (((3 : ℕ) : ℚ) + ((1 : ℕ) : ℚ))) / (40/2400)))) :=
  ⟨by decide,
    by
      have h := (claim_C2_stage2_proportional_allocation 3 1 1 (47/2400) (40/2400)).1 (by decide)
      simpa using h⟩

/-- C3: at the end of a simulated day of the detailed engines, when
`debt > 0` and `cash > 10`, the debt payment is `min(debt, cash - 10)`,
subtracted from both cash and debt; the resulting debt is never negative;
and with `cash = 120`, `debt = 50` the payment is 50, leaving cash 70 and
debt 0.  (`financeStep` feeds its post-revenue running cash into
`debtPaydown` at the end of every day.) -/
theorem claim_C3_debt_paydown_buffer :
    (∀ cash debt : ℚ,
        (0 < debt → 10 < cash →
          debtPaydown cash debt =
            (min debt (cash - 10), cash - min debt (cash - 10), debt - min debt (cash - 10))) ∧
        (0 ≤ debt → 0 ≤ (debtPaydown cash debt).2.2)) ∧
    debtPaydown 120 50 = (50, 70, 0) := by
  constructor
  · intro cash debt
    constructor
    · intro h1 h2
      rw [debtPaydown, if_pos ⟨h1, h2⟩]
    · intro h
      rw [debtPaydown]
      split_ifs with hc
      · simp only
        have : min debt (cash - 10) ≤ debt := min_le_left _ _
        linarith
      · exact h
  · norm_num [debtPaydown]

/-- Witness for C3 at the concrete scenario cash 120, debt 50. -/
theorem claim_C3_witness :
    (0 : ℚ) < 50 ∧ (10 : ℚ) < 120 ∧
      debtPaydown 120 50 = (min 50 (120 - 10), 120 - min 50 (120 - 10), 50 - min 50 (120 - 10)) :=
  ⟨by norm_num, by norm_num,
    (claim_C3_debt_paydown_buffer.1 120 50).1 (by norm_num) (by norm_num)⟩

/-- C7: when the reconstructed WIP of the projection hook exceeds 300 lots,
the hook returns the empty series (never a partially computed one). -/
theorem claim_C7_wip_ceiling_aborts :
    ∀ p : ProjInputs, 300 < projTotalWIP p → runProjection p = [] := by
  intro p h
  rw [runProjection]
  by_cases h1 : p.avgJobsPerDay ≤ 0
  · rw [if_pos h1]
  · rw [if_neg h1, if_pos h]

/-- Concrete projection inputs whose historical Stage-2 queue of 100000 kits
reconstructs to far more than 300 lots. -/
def projInputsLargeWIP : ProjInputs :=
  { analysis :=
      { currentDay := 100
        avgLeadTime := 2
        debt := 0
        cash := 100
        avgQueuedJobs := 0
        avgQueue1 := 0
        avgQueue2 := 100000
        avgQueue3 := 0 }
    avgJobsPerDay := 1
    totalMachineCost := 0
    upfrontFee := 0
    newDebt := 0
    settings :=
      { lotSize := 20
        contract := 1
        station1Machines := 1
        station2Machines := 1
        station3Machines := 1
        materialReorderPoint := 0
        materialOrderQty := 0 }
    inventory := 100
    orderInTransit := false
    orderArrivalDay := 0
    oracle := fun _ => 0
    cashRate := 0
    debtRate := 0 }

/-- Witness for C7: the concrete oversized reconstruction yields the empty
series. -/
theorem claim_C7_witness :
    300 < projTotalWIP projInputsLargeWIP ∧ runProjection projInputsLargeWIP = [] :=
  ⟨by with_unfolding_all decide,
    claim_C7_wip_ceiling_aborts projInputsLargeWIP (by with_unfolding_all decide)⟩

/-- C8 (amended): in the timeline engine's reconstruction the second-pass
Stage-2 queue receives the rounded time-proportional share
`round(total2 * s4 / (s2 + s4))`, while the first-pass queue receives the
rounded share `round(total2 * s2 / (s2 + s4))` capped at 50 lots, so the
split is exactly time-proportional precisely when the rounded first-pass
share is at most 50; the projection hook uses the same capped first-pass
formula but additionally inflates the second-pass queue with
pipeline-buffer terms. -/
theorem claim_C8_stage2_split :
    (∀ t : TimelineInputs,
        tlLotsAtS2 t = min (roundNat (tlTotal2 t * fracFirstPass (procOf t.initialSettings))) 50 ∧
        tlLotsAtS4 t = roundNat (tlTotal2 t * fracSecondPass (procOf t.initialSettings)) ∧
        (roundNat (tlTotal2 t * fracFirstPass (procOf t.initialSettings)) ≤ 50 →
          tlLotsAtS2 t = roundNat (tlTotal2 t * fracFirstPass (procOf t.initialSettings)))) ∧
    (∀ p : ProjInputs,
        projLotsAtS2 p = min (roundNat (projTotal2 p * fracFirstPass (projProc p))) 50 ∧
        projLotsAtS4 p =
          max (roundNat (projTotal2 p * fracSecondPass (projProc p)) +
              roundNat (projEdc p * (projLpj p : ℚ) * 1))
            (roundNat (projDlt p * (5/2) * (2/5)))) := by
  constructor
  · intro t
    exact ⟨rfl, rfl, fun h => min_eq_left h⟩
  · intro p
    exact ⟨rfl, rfl⟩

/-- Concrete timeline inputs with a 20000-kit Stage-2 history: 1000 lots of
Stage-2 aggregate, whose proportional first-pass share is 540 lots. -/
def tlInputsLargeQueue2 : TimelineInputs :=
  { analysis :=
      { currentDay := 0
        avgLeadTime := 2
        debt := 0
        cash := 100
        avgQueuedJobs := 0
        avgQueue1 := 0
        avgQueue2 := 20000
        avgQueue3 := 0 }
    changes := []
    initialSettings :=
      { lotSize := 20
        contract := 1
        station1Machines := 1
        station2Machines := 1
        station3Machines := 1
        materialReorderPoint := 0
        materialOrderQty := 0 }
    oracle := fun _ => 0
    cashRate := 0
    debtRate := 0 }

/-- Counterexample to C8 as stated: with a 20000-kit Stage-2 history the
first-pass queue gets 50 lots, not its proportional share of 540 lots. -/
theorem claim_C8_counterexample :
    roundNat (tlTotal2 tlInputsLargeQueue2 *
        fracFirstPass (procOf tlInputsLargeQueue2.initialSettings)) = 540 ∧
      tlLotsAtS2 tlInputsLargeQueue2 = 50 ∧
      tlLotsAtS2 tlInputsLargeQueue2 ≠
        roundNat (tlTotal2 tlInputsLargeQueue2 *
          fracFirstPass (procOf tlInputsLargeQueue2.initialSettings)) := by
  refine ⟨?_, ?_, ?_⟩ <;> with_unfolding_all decide

/-- Concrete timeline inputs with an empty Stage-2 history, where the
proportional split is exact. -/
def tlInputsSmallQueue2 : TimelineInputs :=
  { analysis :=
      { currentDay := 0
        avgLeadTime := 2
        debt := 0
        cash := 100
        avgQueuedJobs := 0
        avgQueue1 := 0
        avgQueue2 := 600
        avgQueue3 := 0 }
    changes := []
    initialSettings :=
      { lotSize := 20
        contract := 1
        station1Machines := 1
        station2Machines := 1
        station3Machines := 1
        materialReorderPoint := 0
        materialOrderQty := 0 }
    oracle := fun _ => 0
    cashRate := 0
    debtRate := 0 }

/-- Witness for the amended C8: with a 600-kit Stage-2 history (30 lots) the
first-pass share 16 is below the cap, so the split is exactly
proportional. -/
theorem claim_C8_witness :
    roundNat (tlTotal2 tlInputsSmallQueue2 *
        fracFirstPass (procOf tlInputsSmallQueue2.initialSettings)) ≤ 50 ∧
      tlLotsAtS2 tlInputsSmallQueue2 =
        roundNat (tlTotal2 tlInputsSmallQueue2 *
          fracFirstPass (procOf tlInputsSmallQueue2.initialSettings)) :=
  ⟨by with_unfolding_all decide,
    (claim_C8_stage2_split.1 tlInputsSmallQueue2).2.2 (by with_unfolding_all decide)⟩

/-- C9: the Poisson arrival generator is deterministic: from the same
(lambda, seed) pair — i.e. the same threshold `L = exp(-lambda)`, uniform
source and initial loop state — any two terminating runs of the do-while
loop return the same integer. -/
theorem claim_C9_poisson_deterministic :
    ∀ (u : ℚ → ℚ) (L seed p : ℚ) (k r₁ r₂ : ℕ),
      PoissonRun u L seed p k r₁ → PoissonRun u L seed p k r₂ → r₁ = r₂ := by
  intro u L seed p k r₁ r₂ h₁ h₂
  induction h₁ generalizing r₂ with
  | stop seed p k hle =>
    cases h₂ with
    | stop _ _ _ _ => rfl
    | step _ _ _ _ hlt _ => exact absurd hle (not_le.mpr hlt)
  | step seed p k r hlt _ ih =>
    cases h₂ with
    | stop _ _ _ hle => exact absurd hle (not_le.mpr hlt)
    | step _ _ _ _ _ h₂' => exact ih _ h₂'

/-- Witness for C9: a concrete two-iteration run, used twice, yields the
same count. -/
theorem claim_C9_witness :
    PoissonRun (fun _ => 1/2) (1/3) 0 1 0 1 ∧ (1 : ℕ) = 1 := by
  have d : PoissonRun (fun _ => 1/2) (1/3) 0 1 0 1 := by
    refine PoissonRun.step 0 1 0 1 (by norm_num) ?_
    exact PoissonRun.stop (0 + 1) (1 * (1/2)) (0 + 1) (by norm_num)
  exact ⟨d, claim_C9_poisson_deterministic (fun _ => 1/2) (1/3) 0 1 0 1 1 d d⟩

/-- A lot present at day `n` of a projection run is present at every later
day, at a station of at least the same rank. -/
theorem proj_lot_chain (p : ProjInputs) (i : ℕ) (l : Lot) (n : ℕ)
    (hf : lotById i (projStates p n) = some l) :
    ∀ m, n ≤ m → ∃ lm, lotById i (projStates p m) = some lm ∧
      l.currentStation.rank ≤ lm.currentStation.rank := by
  intro m hnm
  induction m, hnm using Nat.le_induction with
  | base => exact ⟨l, hf, le_refl _⟩
  | succ m hm ih =>
    obtain ⟨lm, hfm, hr⟩ := ih
    obtain ⟨l', hf', hstep⟩ :=
      dayStep_lot_transport (projCfg p) (p.oracle (projDayAt p m)) ((projDayAt p m : ℕ) : ℚ)
        (if m = 0 then p.totalMachineCost else 0) (projStates p m) (proj_wf p m) hfm
    refine ⟨l', by rw [projStates_succ]; exact hf', ?_⟩
    rcases hstep with h | h
    · rw [h]; exact hr
    · rw [h]; exact le_trans hr (Station.rank_next _)

/-- C5: a lot's station only ever advances forward through the fixed
sequence Stage 1 → Stage 2 (pass 1) → Stage 3 → Stage 2 (pass 2) →
Complete: across any single day of either engine it either keeps its
station or moves to exactly the successor station (never regresses, never
skips), and over the course of a projection run its station rank is
non-decreasing. -/
theorem claim_C5_station_monotonicity :
    (∀ (p : ProjInputs) (n i : ℕ) (l l' : Lot),
        lotById i (projStates p n) = some l →
        lotById i (projStates p (n + 1)) = some l' →
        l'.currentStation = l.currentStation ∨ l'.currentStation = l.currentStation.next) ∧
    (∀ (t : TimelineInputs) (n i : ℕ) (l l' : Lot),
        lotById i (timelineRun t n).2 = some l →
        lotById i (timelineRun t (n + 1)).2 = some l' →
        l'.currentStation = l.currentStation ∨ l'.currentStation = l.currentStation.next) ∧
    (∀ (p : ProjInputs) (n m i : ℕ) (l l' : Lot), n ≤ m →
        lotById i (projStates p n) = some l →
        lotById i (projStates p m) = some l' →
        l.currentStation.rank ≤ l'.currentStation.rank) := by
  have step : ∀ (p : ProjInputs) (n i : ℕ) (l l' : Lot),
      lotById i (projStates p n) = some l →
      lotById i (projStates p (n + 1)) = some l' →
      l'.currentStation = l.currentStation ∨ l'.currentStation = l.currentStation.next := by
    intro p n i l l' hf hf'
    obtain ⟨l'', hf'', hstep⟩ :=
      dayStep_lot_transport (projCfg p) (p.oracle (projDayAt p n)) ((projDayAt p n : ℕ) : ℚ)
        (if n = 0 then p.totalMachineCost else 0) (projStates p n) (proj_wf p n) hf
    rw [projStates_succ] at hf'
    rw [hf''] at hf'
    cases hf'
    exact hstep
  refine ⟨step, ?_, ?_⟩
  · intro t n i l l' hf hf'
    have hlots := (applyChanges_preserve t.changes (t.analysis.currentDay + n + 1)
      (timelineRun t n)).2.1
    have hf2 : lotById i (applyChanges t.changes (t.analysis.currentDay + n + 1)
        (timelineRun t n)).2 = some l := by
      rw [lotById, hlots]
      exact hf
    obtain ⟨l'', hf'', hstep⟩ :=
      dayStep_lot_transport _ (t.oracle (t.analysis.currentDay + n + 1))
        ((t.analysis.currentDay + n + 1 : ℕ) : ℚ) 0 _
        (applyChanges_wf _ _ _ (timeline_wf t n)) hf2
    rw [timelineRun_succ] at hf'
    rw [hf''] at hf'
    cases hf'
    exact hstep
  · intro p n m i l l' hnm hfn hfm
    obtain ⟨lm, hfm', hr⟩ := proj_lot_chain p i l n hfn m hnm
    rw [hfm'] at hfm
    cases hfm
    exact hr

/-- Witness for C5: lot 1 of the small projection input is at the second
Stage-2 pass on day 0 and complete after day 1 — one forward step. -/
theorem claim_C5_witness :
    lotById 1 (projStates projInputsSmall 0) = some ⟨1, 1, Station.s4, 100⟩ ∧
    lotById 1 (projStates projInputsSmall 1) = some ⟨1, 1, Station.complete, 100⟩ ∧
    ((⟨1, 1, Station.complete, 100⟩ : Lot).currentStation =
        (⟨1, 1, Station.s4, 100⟩ : Lot).currentStation ∨
      (⟨1, 1, Station.complete, 100⟩ : Lot).currentStation =
        (⟨1, 1, Station.s4, 100⟩ : Lot).currentStation.next) := by
  have h1 : lotById 1 (projStates projInputsSmall 0) = some ⟨1, 1, Station.s4, 100⟩ := by
    with_unfolding_all decide
  have h2 : lotById 1 (projStates projInputsSmall 1) = some ⟨1, 1, Station.complete, 100⟩ := by
    with_unfolding_all decide
  exact ⟨h1, h2, claim_C5_station_monotonicity.1 projInputsSmall 0 1 _ _ h1 h2⟩

/-- C6: provided the initial kits inventory is non-negative, inventory never
goes negative during a projection run (consumption is gated on 60 kits being
available, and replenishment adds the clamped-non-negative order quantity);
the timeline run starts from the hard-coded 1000 kits and likewise never
goes negative. -/
theorem claim_C6_inventory_nonneg :
    (∀ p : ProjInputs, 0 ≤ p.inventory → ∀ n, 0 ≤ (projStates p n).kitsInventory) ∧
    (∀ (t : TimelineInputs) (n : ℕ), 0 ≤ (timelineRun t n).2.kitsInventory) := by
  constructor
  · intro p hp n
    induction n with
    | zero => exact hp
    | succ n ih =>
      rw [projStates_succ]
      exact dayStep_inventory _ _ _ _ _ (le_max_left 0 _) ih
  · intro t n
    induction n with
    | zero =>
      show (0 : ℚ) ≤ 1000
      norm_num
    | succ n ih =>
      rw [timelineRun_succ]
      refine dayStep_inventory _ _ _ 0 _ (le_max_left 0 _) ?_
      rw [(applyChanges_preserve t.changes (t.analysis.currentDay + n + 1)
        (timelineRun t n)).2.2.2.2.2]
      exact ih

/-- Witness for C6 at the small projection input (60 kits on hand). -/
theorem claim_C6_witness :
    (0 : ℚ) ≤ projInputsSmall.inventory ∧
      0 ≤ (projStates projInputsSmall 1).kitsInventory := by
  have h : (0 : ℚ) ≤ projInputsSmall.inventory := by
    show (0 : ℚ) ≤ 60
    norm_num
  exact ⟨h, claim_C6_inventory_nonneg.1 projInputsSmall h 1⟩

/-- C10 (amended): within a single simulated day of either engine, every lot
advances by at most one station (the per-station queues are snapshotted
before any transition and the snapshots are disjoint), and every lot whose
id was allocated during the arrival phase — i.e. created by a new Poisson
arrival, after the release phase — still sits at Stage 1 at the end of that
day.  Lots created by releasing kit-starved jobs, however, are pushed onto
the lot list before the snapshots are taken and can advance on their
creation day (see the counterexample). -/
theorem claim_C10_single_advance_per_day :
    (∀ (cfg : DayConfig) (a : ℕ) (day mc : ℚ) (st : SimState), StateWF st →
      ∀ (i : ℕ) (l l' : Lot), lotById i st = some l →
        lotById i (dayStep cfg a day mc st).1 = some l' →
        l'.currentStation = l.currentStation ∨ l'.currentStation = l.currentStation.next) ∧
    (∀ (cfg : DayConfig) (a : ℕ) (day mc : ℚ) (st : SimState), StateWF st →
      ∀ l' ∈ (dayStep cfg a day mc st).1.lots,
        (afterRelease cfg day st).nextLotId ≤ l'.id → l'.currentStation = Station.s1) := by
  constructor
  · intro cfg a day mc st hwf i l l' hf hf'
    obtain ⟨l'', hf'', hstep⟩ := dayStep_lot_transport cfg a day mc st hwf hf
    rw [hf''] at hf'
    cases hf'
    exact hstep
  · intro cfg a day mc st hwf l' hl' hid
    exact dayStep_new_lots cfg a day mc st hwf l' hl' hid

/-- Counterexample to C10 as stated: on the small projection input, the
initial state's next fresh lot id is 13, so lot 13 is created during day 1
(when waiting job 5 is released), yet at the end of day 1 it sits at the
first Stage-2 pass — a lot created on a day changed station that same
day. -/
theorem claim_C10_counterexample :
    (projInit projInputsSmall).nextLotId = 13 ∧
    lotById 13 (projStates projInputsSmall 1) = some ⟨13, 5, Station.s2, 101⟩ ∧
    Station.s2 ≠ Station.s1 := by
  refine ⟨?_, ?_, ?_⟩ <;> with_unfolding_all decide

/-- Witness for the amended C10: lot 2 of the small projection input moves
exactly one station over the concrete day step. -/
theorem claim_C10_witness :
    StateWF (projInit projInputsSmall) ∧
    lotById 2 (projInit projInputsSmall) = some ⟨2, 1, Station.s4, 100⟩ ∧
    lotById 2 (dayStep (projCfg projInputsSmall) 0 101 0 (projInit projInputsSmall)).1 =
      some ⟨2, 1, Station.complete, 100⟩ ∧
    ((⟨2, 1, Station.complete, 100⟩ : Lot).currentStation =
        (⟨2, 1, Station.s4, 100⟩ : Lot).currentStation ∨
      (⟨2, 1, Station.complete, 100⟩ : Lot).currentStation =
        (⟨2, 1, Station.s4, 100⟩ : Lot).currentStation.next) := by
  have h0 : StateWF (projInit projInputsSmall) := projInit_wf projInputsSmall
  have h1 : lotById 2 (projInit projInputsSmall) = some ⟨2, 1, Station.s4, 100⟩ := by
    with_unfolding_all decide
  have h2 : lotById 2 (dayStep (projCfg projInputsSmall) 0 101 0
      (projInit projInputsSmall)).1 = some ⟨2, 1, Station.complete, 100⟩ := by
    with_unfolding_all decide
  exact ⟨h0, h1, h2,
    claim_C10_single_advance_per_day.1 (projCfg projInputsSmall) 0 101 0
      (projInit projInputsSmall) h0 2 _ _ h1 h2⟩

/-! ## Lot accounting for job completion -/

/-- Number of not-yet-complete lots owned by job `jid`. -/
def noncnt (jid : ℕ) (lots : List Lot) : ℕ :=
  lots.countP fun l => decide (l.jobId = jid ∧ l.currentStation ≠ Station.complete)

theorem noncnt_append (jid : ℕ) (A B : List Lot) :
    noncnt jid (A ++ B) = noncnt jid A + noncnt jid B :=
  List.countP_append _ _ _

theorem noncnt_mkLots (jid' jid startId n : ℕ) (day : ℚ) :
    noncnt jid' (mkLots jid startId n Station.s1 day) = if jid = jid' then n else 0 := by
  rw [noncnt, mkLots, List.countP_map]
  split_ifs with h
  · rw [List.countP_eq_length.mpr, List.length_range]
    intro k hk
    simp [Function.comp, h]
  · rw [List.countP_eq_zero.mpr, ]
    intro k hk
    simp [Function.comp, h]

theorem noncnt_eq_zero_of_bound {jid : ℕ} {lots : List Lot} (nj : ℕ)
    (hb : ∀ l ∈ lots, l.jobId < nj) (hjid : nj ≤ jid) : noncnt jid lots = 0 := by
  rw [noncnt, List.countP_eq_zero]
  intro l hl
  have := hb l hl
  simp only [decide_eq_true_eq, not_and]
  intro h
  omega

theorem noncnt_pos_of_mem {jid : ℕ} {lots : List Lot} {l : Lot} (hl : l ∈ lots)
    (hj : l.jobId = jid) (hs : l.currentStation ≠ Station.complete) :
    0 < noncnt jid lots := by
  rw [noncnt, List.countP_pos_iff]
  exact ⟨l, hl, by simp [hj, hs]⟩

/-- The day's transitions never increase a job's not-yet-complete lot count. -/
theorem noncnt_psMove_le (cfg : DayConfig) (st : SimState) (day : ℚ)
    (hnd : (st.lots.map Lot.id).Nodup) (jid : ℕ) :
    noncnt jid (st.lots.map (psMove cfg st day)) ≤ noncnt jid st.lots := by
  rw [noncnt, List.countP_map, noncnt]
  refine List.countP_mono_left ?_
  intro l hl hp
  simp only [Function.comp, decide_eq_true_eq] at hp
  simp only [decide_eq_true_eq]
  rcases @psMove_cases cfg st day hnd l hl with
    ⟨-, h | ⟨hs, h⟩ | ⟨hs, h⟩ | ⟨hs, h⟩⟩ | ⟨-, -, h⟩
  · rw [h] at hp
    exact hp
  · rw [h] at hp
    simp only [Lot.advanceTo_jobId] at hp
    exact ⟨hp.1, by rw [hs]; simp⟩
  · rw [h] at hp
    simp only [Lot.advanceTo_jobId] at hp
    exact ⟨hp.1, by rw [hs]; simp⟩
  · rw [h] at hp
    simp only [Lot.advanceTo_jobId] at hp
    exact ⟨hp.1, by rw [hs]; simp⟩
  · rw [h] at hp
    simp only [Lot.finish_station] at hp
    exact absurd rfl hp.2

/-- The day's transitions reduce a job's not-yet-complete count by at least
the number of its lots completing today. -/
theorem noncnt_psMove_add_completed_le (cfg : DayConfig) (st : SimState) (day : ℚ)
    (hnd : (st.lots.map Lot.id).Nodup) (jid : ℕ) :
    noncnt jid (st.lots.map (psMove cfg st day)) +
        ((psChosen4 cfg st).map Lot.jobId).count jid ≤ noncnt jid st.lots := by
  set p : Lot → Bool := fun l => decide (l.jobId = jid ∧ l.currentStation ≠ Station.complete)
    with hpdef
  set mem4 : Lot → Bool := fun l => decide (l.id ∈ (psChosen4 cfg st).map Lot.id) with hm4def
  have hpoint : ∀ l ∈ st.lots, p (psMove cfg st day l) = (p l && !(mem4 l)) := by
    intro l hl
    rcases @psMove_cases cfg st day hnd l hl with
      ⟨hnm, hcase⟩ | ⟨hm, hs, h⟩
    · have hm4f : mem4 l = false := by rw [hm4def]; exact decide_eq_false hnm
      rcases hcase with h | ⟨hs, h⟩ | ⟨hs, h⟩ | ⟨hs, h⟩
      · rw [h, hm4f, Bool.not_false, Bool.and_true]
      · rw [h, hm4f, Bool.not_false, Bool.and_true, hpdef]
        refine decide_eq_decide.mpr ?_
        rw [hs]
        simp
      · rw [h, hm4f, Bool.not_false, Bool.and_true, hpdef]
        refine decide_eq_decide.mpr ?_
        rw [hs]
        simp
      · rw [h, hm4f, Bool.not_false, Bool.and_true, hpdef]
        refine decide_eq_decide.mpr ?_
        rw [hs]
        simp
    · have hm4t : mem4 l = true := by rw [hm4def]; exact decide_eq_true hm
      rw [h, hm4t, Bool.not_true, Bool.and_false, hpdef]
      exact decide_eq_false (by simp)
  have hA : noncnt jid (st.lots.map (psMove cfg st day)) =
      st.lots.countP fun l => p l && !(mem4 l) := by
    rw [noncnt, List.countP_map]
    refine List.countP_congr ?_
    intro l hl
    have hx := hpoint l hl
    simp only [hpdef, hm4def] at hx ⊢
    rw [Function.comp, hx]
  have hB : ((psChosen4 cfg st).map Lot.jobId).count jid ≤
      st.lots.countP fun l => p l && mem4 l := by
    rw [List.count, List.countP_map, List.countP_eq_length_filter]
    refine countP_le_of_nodup_subset ?_ ?_ _ ?_
    · exact ((take_queueAt_ids_nodup hnd Station.s4 (psAlloc cfg st).2).of_map).filter _
    · intro c hc
      exact (mem_take_queueAt (List.mem_of_mem_filter hc)).1
    · intro c hc
      have hmem : c ∈ psChosen4 cfg st := List.mem_of_mem_filter hc
      have hjeq : c.jobId = jid := by
        have := List.of_mem_filter hc
        simpa using this
      have hst : c.currentStation = Station.s4 := (mem_take_queueAt hmem).2
      rw [Bool.and_eq_true, hpdef, hm4def]
      constructor
      · exact decide_eq_true ⟨hjeq, by rw [hst]; simp⟩
      · exact decide_eq_true (List.mem_map_of_mem Lot.id hmem)
  have hsplit := countP_split p mem4 st.lots
  have hend : noncnt jid st.lots = st.lots.countP p := by rw [noncnt, hpdef]
  omega

/-- The job-accounting invariant for runs with `lpj` lots per job:
every job's completed count plus its live lots stay within `totalLots`,
all jobs carry `totalLots = lpj`, kit-starved jobs own no live lots and
have completed nothing. -/
def C4Inv (lpj : ℕ) (st : SimState) : Prop :=
  (∀ j ∈ st.jobs, j.completedLots + noncnt j.id st.lots ≤ j.totalLots) ∧
  (∀ j ∈ st.jobs, j.totalLots = lpj) ∧
  (∀ jid ∈ st.waitingForKits, noncnt jid st.lots = 0) ∧
  (∀ j ∈ st.jobs, j.id ∈ st.waitingForKits → j.completedLots = 0)

/-- Mid-day (state, pending lots) version of the accounting invariant. -/
def C4InvP (lpj : ℕ) (x : SimState × List Lot) : Prop :=
  (∀ j ∈ x.1.jobs, j.completedLots + noncnt j.id (x.1.lots ++ x.2) ≤ j.totalLots) ∧
  (∀ j ∈ x.1.jobs, j.totalLots = lpj) ∧
  (∀ jid ∈ x.1.waitingForKits, noncnt jid (x.1.lots ++ x.2) = 0) ∧
  (∀ j ∈ x.1.jobs, j.id ∈ x.1.waitingForKits → j.completedLots = 0)

theorem materialArrival_C4 (cfg : DayConfig) (day : ℚ) (st : SimState) {lpj : ℕ}
    (h : C4Inv lpj st) : C4Inv lpj (materialArrival cfg day st) := by
  obtain ⟨h1, h2, h3, h4⟩ := h
  refine ⟨?_, ?_, ?_, ?_⟩ <;>
    simp only [materialArrival_jobs, materialArrival_lots, materialArrival_waiting]
  · exact h1
  · exact h2
  · exact h3
  · exact h4

theorem releaseWaitingAux_C4 (lpj : ℕ) (day : ℚ) :
    ∀ (w : List ℕ) (st : SimState), w.Nodup →
      (∀ j ∈ st.jobs, j.completedLots + noncnt j.id st.lots ≤ j.totalLots) →
      (∀ j ∈ st.jobs, j.totalLots = lpj) →
      (∀ jid ∈ w, noncnt jid st.lots = 0) →
      (∀ j ∈ st.jobs, j.id ∈ w → j.completedLots = 0) →
      C4Inv lpj (releaseWaitingAux lpj day w st) := by
  intro w
  induction w with
  | nil =>
    intro st hnd h1 h2 h3 h4
    rw [releaseWaitingAux]
    exact ⟨h1, h2, by simp, by simp⟩
  | cons jid rest ih =>
    intro st hnd h1 h2 h3 h4
    rw [releaseWaitingAux]
    split_ifs with hinv
    · refine ih _ (List.Nodup.of_cons hnd) ?_ ?_ ?_ ?_
      · intro j hj
        simp only at hj ⊢
        obtain ⟨jb, hjb, rfl⟩ := List.mem_map.mp hj
        rw [noncnt_append, noncnt_mkLots]
        have hcc : (if jb.id = jid then { jb with startDay := day } else jb).completedLots =
            jb.completedLots := by split_ifs <;> rfl
        have hct : (if jb.id = jid then { jb with startDay := day } else jb).totalLots =
            jb.totalLots := by split_ifs <;> rfl
        have hcid : (if jb.id = jid then { jb with startDay := day } else jb).id = jb.id := by
          split_ifs <;> rfl
        rw [hcc, hct, hcid]
        by_cases hje : jid = jb.id
        · rw [if_pos hje]
          have hz : noncnt jb.id st.lots = 0 := by
            rw [← hje]
            exact h3 jid (List.mem_cons_self _ _)
          have hc0 : jb.completedLots = 0 := by
            refine h4 jb hjb ?_
            rw [hje]
            exact List.mem_cons_self _ _
          rw [hz, hc0, h2 jb hjb]
          omega
        · rw [if_neg hje]
          have := h1 jb hjb
          omega
      · intro j hj
        simp only at hj
        obtain ⟨jb, hjb, rfl⟩ := List.mem_map.mp hj
        have hct : (if jb.id = jid then { jb with startDay := day } else jb).totalLots =
            jb.totalLots := by split_ifs <;> rfl
        rw [hct]
        exact h2 jb hjb
      · intro jid' hj
        simp only
        rw [noncnt_append, noncnt_mkLots]
        have hne : jid ≠ jid' := by
          intro hx
          rw [hx] at hnd
          exact (List.nodup_cons.mp hnd).1 hj
        rw [if_neg hne, h3 jid' (List.mem_cons_of_mem _ hj)]
      · intro j hj hjw
        simp only at hj
        obtain ⟨jb, hjb, rfl⟩ := List.mem_map.mp hj
        have hcc : (if jb.id = jid then { jb with startDay := day } else jb).completedLots =
            jb.completedLots := by split_ifs <;> rfl
        have hcid : (if jb.id = jid then { jb with startDay := day } else jb).id = jb.id := by
          split_ifs <;> rfl
        rw [hcc]
        rw [hcid] at hjw
        exact h4 jb hjb (List.mem_cons_of_mem _ hjw)
    · exact ⟨h1, h2, h3, h4⟩

theorem arrivalStep_C4 (cfg : DayConfig) (day : ℚ) (a : ℕ) (acc : SimState × List Lot)
    (j : ℕ) {lpj : ℕ} (hlpj : cfg.lotsPerJob = lpj) (hwf : PairWF acc)
    (h : C4InvP lpj acc) : C4InvP lpj (arrivalStep cfg day a acc j) := by
  obtain ⟨w1, w2, w3, w4, w5, w6⟩ := hwf
  obtain ⟨h1, h2, h3, h4⟩ := h
  rw [arrivalStep]
  split_ifs with hinv
  · refine ⟨?_, ?_, ?_, ?_⟩
    · intro jb hjb
      simp only at hjb ⊢
      rw [← List.append_assoc, noncnt_append, noncnt_mkLots]
      rcases List.mem_append.mp hjb with h' | h'
      · have hlt := w3 jb h'
        rw [if_neg (by omega)]
        have := h1 jb h'
        omega
      · simp only [List.mem_singleton] at h'
        rw [h']
        show (0 : ℕ) + (noncnt acc.1.nextJobId (acc.1.lots ++ acc.2) +
          (if acc.1.nextJobId = acc.1.nextJobId then cfg.lotsPerJob else 0)) ≤ cfg.lotsPerJob
        rw [if_pos rfl, noncnt_eq_zero_of_bound acc.1.nextJobId w4 (le_refl _)]
        omega
    · intro jb hjb
      simp only at hjb
      rcases List.mem_append.mp hjb with h' | h'
      · exact h2 jb h'
      · simp only [List.mem_singleton] at h'
        rw [h']
        exact hlpj
    · intro jid hj
      simp only at hj ⊢
      rw [← List.append_assoc, noncnt_append, noncnt_mkLots]
      have hlt := w6 jid hj
      rw [if_neg (by omega), h3 jid hj]
    · intro jb hjb hjw
      simp only at hjb hjw
      rcases List.mem_append.mp hjb with h' | h'
      · exact h4 jb h' hjw
      · simp only [List.mem_singleton] at h'
        rw [h']
  · refine ⟨?_, ?_, ?_, ?_⟩
    · intro jb hjb
      simp only at hjb ⊢
      rcases List.mem_append.mp hjb with h' | h'
      · exact h1 jb h'
      · simp only [List.mem_singleton] at h'
        rw [h']
        show (0 : ℕ) + noncnt acc.1.nextJobId (acc.1.lots ++ acc.2) ≤ cfg.lotsPerJob
        rw [noncnt_eq_zero_of_bound acc.1.nextJobId w4 (le_refl _)]
        omega
    · intro jb hjb
      simp only at hjb
      rcases List.mem_append.mp hjb with h' | h'
      · exact h2 jb h'
      · simp only [List.mem_singleton] at h'
        rw [h']
        exact hlpj
    · intro jid hj
      simp only at hj ⊢
      rcases List.mem_append.mp hj with h' | h'
      · exact h3 jid h'
      · simp only [List.mem_singleton] at h'
        rw [h']
        exact noncnt_eq_zero_of_bound acc.1.nextJobId w4 (le_refl _)
    · intro jb hjb hjw
      simp only at hjb hjw
      rcases List.mem_append.mp hjb with h' | h'
      · rcases List.mem_append.mp hjw with h'' | h''
        · exact h4 jb h' h''
        · simp only [List.mem_singleton] at h''
          have hxx : jb.id = acc.1.nextJobId := h''
          have := w3 jb h'
          omega
      · simp only [List.mem_singleton] at h'
        rw [h']

theorem foldl_arrivalStep_C4 (cfg : DayConfig) (day : ℚ) (a : ℕ) {lpj : ℕ}
    (hlpj : cfg.lotsPerJob = lpj) :
    ∀ (js : List ℕ) (acc : SimState × List Lot), PairWF acc → C4InvP lpj acc →
      C4InvP lpj (js.foldl (arrivalStep cfg day a) acc) := by
  intro js
  induction js with
  | nil => intro acc _ h; exact h
  | cons j js ih =>
    intro acc hwf h
    rw [List.foldl_cons]
    exact ih _ (arrivalStep_pairWF cfg day a acc j hwf)
      (arrivalStep_C4 cfg day a acc j hlpj hwf h)

theorem processStations_C4P (cfg : DayConfig) (day : ℚ) (st : SimState) (pending : List Lot)
    {lpj : ℕ} (hwf : PairWF (st, pending)) (h : C4InvP lpj (st, pending)) :
    C4InvP lpj (processStations cfg day st, pending) := by
  obtain ⟨⟨hnd, hlt⟩, w2, w3, w4, w5, w6⟩ := hwf
  obtain ⟨h1, h2, h3, h4⟩ := h
  simp only at hnd hlt h1 h2 h3 h4 w3 w4 w6
  have hnd0 : (st.lots.map Lot.id).Nodup := by
    rw [List.map_append] at hnd
    exact hnd.of_append_left
  refine ⟨?_, ?_, ?_, ?_⟩
  · intro jb hjb
    simp only [processStations_jobs, bumpCompleted] at hjb
    obtain ⟨j0, hj0, rfl⟩ := List.mem_map.mp hjb
    simp only [processStations_lots, noncnt_append]
    have hmain := noncnt_psMove_add_completed_le cfg st day hnd0 j0.id
    have horig := h1 j0 hj0
    rw [noncnt_append] at horig
    omega
  · intro jb hjb
    simp only [processStations_jobs, bumpCompleted] at hjb
    obtain ⟨j0, hj0, rfl⟩ := List.mem_map.mp hjb
    exact h2 j0 hj0
  · intro jid hj
    simp only at hj ⊢
    rw [processStations_waiting] at hj
    rw [processStations_lots, noncnt_append]
    have hz := h3 jid hj
    rw [noncnt_append] at hz
    have hle := noncnt_psMove_le cfg st day hnd0 jid
    omega
  · intro jb hjb hjw
    simp only [processStations_jobs, bumpCompleted] at hjb
    simp only at hjw
    rw [processStations_waiting] at hjw
    obtain ⟨j0, hj0, rfl⟩ := List.mem_map.mp hjb
    simp only at hjw ⊢
    have hc0 : j0.completedLots = 0 := h4 j0 hj0 hjw
    have hz := h3 j0.id hjw
    rw [noncnt_append] at hz
    have hcount : ((psChosen4 cfg st).map Lot.jobId).count j0.id = 0 := by
      rw [List.count_eq_zero]
      intro hmem
      obtain ⟨c, hc, hcid⟩ := List.mem_map.mp hmem
      have hcl : c ∈ st.lots := (mem_take_queueAt hc).1
      have hcs : c.currentStation = Station.s4 := (mem_take_queueAt hc).2
      have := noncnt_pos_of_mem hcl hcid (by rw [hcs]; simp)
      omega
    rw [hc0, hcount]

theorem completeJobs_C4 (day : ℚ) (st : SimState) {lpj : ℕ} (h : C4Inv lpj st) :
    C4Inv lpj { st with jobs := (completeJobs day st.jobs).1 } := by
  obtain ⟨h1, h2, h3, h4⟩ := h
  have hshape : ∀ j : Job,
      ((if j.completionDay = none ∧ j.completedLots = j.totalLots then
        { j with completionDay := some day } else j).id = j.id) ∧
      ((if j.completionDay = none ∧ j.completedLots = j.totalLots then
        { j with completionDay := some day } else j).completedLots = j.completedLots) ∧
      ((if j.completionDay = none ∧ j.completedLots = j.totalLots then
        { j with completionDay := some day } else j).totalLots = j.totalLots) := by
    intro j
    refine ⟨?_, ?_, ?_⟩ <;> split_ifs <;> rfl
  refine ⟨?_, ?_, ?_, ?_⟩
  · intro jb hjb
    simp only [completeJobs] at hjb
    obtain ⟨j0, hj0, rfl⟩ := List.mem_map.mp hjb
    obtain ⟨e1, e2, e3⟩ := hshape j0
    rw [e1, e2, e3]
    exact h1 j0 hj0
  · intro jb hjb
    simp only [completeJobs] at hjb
    obtain ⟨j0, hj0, rfl⟩ := List.mem_map.mp hjb
    rw [(hshape j0).2.2]
    exact h2 j0 hj0
  · exact h3
  · intro jb hjb hjw
    simp only [completeJobs] at hjb
    obtain ⟨j0, hj0, rfl⟩ := List.mem_map.mp hjb
    obtain ⟨e1, e2, -⟩ := hshape j0
    rw [e1] at hjw
    rw [e2]
    exact h4 j0 hj0 hjw

/-- A full simulated day preserves the job-accounting invariant when the
day's lots-per-job matches the invariant's. -/
theorem dayStep_C4 (cfg : DayConfig) (a : ℕ) (day mc : ℚ) (st : SimState) {lpj : ℕ}
    (hlpj : cfg.lotsPerJob = lpj) (hwf : StateWF st) (h : C4Inv lpj st) :
    C4Inv lpj (dayStep cfg a day mc st).1 := by
  subst hlpj
  have hwf0 := materialArrival_wf cfg day st hwf
  have h0 := materialArrival_C4 cfg day st h
  -- release phase
  have h1 : C4Inv cfg.lotsPerJob (afterRelease cfg day st) := by
    rw [afterRelease, releaseWaiting]
    obtain ⟨x1, x2, x3, x4⟩ := h0
    obtain ⟨-, -, -, -, y5, -⟩ := hwf0
    exact releaseWaitingAux_C4 cfg.lotsPerJob day (materialArrival cfg day st).waitingForKits
      { materialArrival cfg day st with waitingForKits := [] } y5 x1 x2 x3 x4
  have hwf1 := afterRelease_wf cfg day st hwf
  -- arrival phase
  have hP : C4InvP cfg.lotsPerJob (afterArrivals cfg a day st) := by
    rw [afterArrivals, processArrivals]
    refine foldl_arrivalStep_C4 cfg day a rfl _ _ (pairWF_of_stateWF hwf1) ?_
    obtain ⟨x1, x2, x3, x4⟩ := h1
    exact ⟨by simpa using x1, x2, by simpa using x3, x4⟩
  have hwfP := afterArrivals_pairWF cfg a day st hwf
  -- stage transitions
  have hP2 : C4InvP cfg.lotsPerJob
      (processStations cfg day (afterArrivals cfg a day st).1, (afterArrivals cfg a day st).2) :=
    processStations_C4P cfg day _ _ (by simpa using hwfP) (by simpa using hP)
  -- merge pending
  have h5 : C4Inv cfg.lotsPerJob (afterMoves cfg a day st) := by
    obtain ⟨x1, x2, x3, x4⟩ := hP2
    rw [afterMoves]
    exact ⟨by simpa using x1, x2, by simpa using x3, x4⟩
  -- completion check and financial tail
  have h6 := completeJobs_C4 day (afterMoves cfg a day st) h5
  obtain ⟨x1, x2, x3, x4⟩ := h6
  rw [dayStep_state]
  refine ⟨?_, ?_, ?_, ?_⟩
  · intro jb hjb
    rw [financeStep_jobs] at hjb
    rw [financeStep_lots]
    exact x1 jb hjb
  · intro jb hjb
    rw [financeStep_jobs] at hjb
    exact x2 jb hjb
  · intro jid hj
    rw [financeStep_waiting] at hj
    rw [financeStep_lots]
    exact x3 jid hj
  · intro jb hjb hjw
    rw [financeStep_jobs] at hjb
    rw [financeStep_waiting] at hjw
    exact x4 jb hjb hjw

/-- A `mkLots` block at a non-complete station contributes exactly its lot
count to its owner's not-yet-complete tally and nothing to other jobs. -/
theorem noncnt_mkLots_of_ne (jid' jid startId n : ℕ) (s : Station) (day : ℚ)
    (hs : s ≠ Station.complete) :
    noncnt jid' (mkLots jid startId n s day) = if jid = jid' then n else 0 := by
  rw [noncnt, mkLots, List.countP_map]
  split_ifs with h
  · rw [List.countP_eq_length.mpr, List.length_range]
    intro k hk
    simp [Function.comp, h, hs]
  · rw [List.countP_eq_zero.mpr]
    intro k hk
    simp [Function.comp, h]

/-- With distinct job ids the WIP reconstruction assigns each listed job at
most `lpj` not-yet-complete lots, and none to any job outside the list. -/
theorem noncnt_fillJobs (lpj : ℕ) (day : ℚ) :
    ∀ (js : List ℕ) (nid r4 r3 r2 r1 jid : ℕ), js.Nodup →
      noncnt jid (fillJobs lpj day js nid r4 r3 r2 r1) ≤ if jid ∈ js then lpj else 0 := by
  intro js
  induction js with
  | nil =>
    intro nid r4 r3 r2 r1 jid _
    simp [fillJobs, noncnt]
  | cons a rest ih =>
    intro nid r4 r3 r2 r1 jid hnd
    have hrec : ∀ n' s4 s3 s2 s1,
        noncnt jid (fillJobs lpj day rest n' s4 s3 s2 s1) ≤ if jid ∈ rest then lpj else 0 :=
      fun n' s4 s3 s2 s1 => ih n' s4 s3 s2 s1 jid (List.Nodup.of_cons hnd)
    simp only [fillJobs, noncnt_append]
    rw [noncnt_mkLots_of_ne jid a _ _ Station.s4 _ (by simp),
      noncnt_mkLots_of_ne jid a _ _ Station.s3 _ (by simp),
      noncnt_mkLots_of_ne jid a _ _ Station.s2 _ (by simp),
      noncnt_mkLots_of_ne jid a _ _ Station.s1 _ (by simp)]
    refine le_trans (Nat.add_le_add_left (hrec _ _ _ _ _) _) ?_
    by_cases h : a = jid
    · subst h
      have hnr : a ∉ rest := (List.nodup_cons.mp hnd).1
      rw [if_pos rfl, if_pos rfl, if_pos rfl, if_pos rfl, if_neg hnr,
        if_pos (List.mem_cons_self a rest)]
      omega
    · rw [if_neg h, if_neg h, if_neg h, if_neg h]
      by_cases h2 : jid ∈ rest
      · rw [if_pos h2, if_pos (List.mem_cons_of_mem a h2)]
        omega
      · rw [if_neg h2, if_neg (fun hm => (List.mem_cons.mp hm).elim (fun he => h he.symm) h2)]

/-- The reconstructed initial state of the projection hook satisfies the
job-accounting invariant. -/
theorem projInit_C4 (p : ProjInputs) : C4Inv (projLpj p) (projInit p) := by
  have hjshape : ∀ j ∈ (projInit p).jobs, j.completedLots = 0 ∧ j.totalLots = projLpj p := by
    intro j hj
    have hj' : j ∈ projInitJobs p ++ projWaitJobs p := hj
    rcases List.mem_append.mp hj' with hj2 | hj2
    · rw [projInitJobs] at hj2
      obtain ⟨i, -, rfl⟩ := List.mem_map.mp hj2
      exact ⟨rfl, rfl⟩
    · rw [projWaitJobs] at hj2
      obtain ⟨i, -, rfl⟩ := List.mem_map.mp hj2
      exact ⟨rfl, rfl⟩
  have hnodup : ((projInitJobs p).map Job.id).Nodup := by
    rw [projInitJobs_ids]
    exact (List.nodup_range _).map fun x y h => by omega
  have hlotsEq : (projInit p).lots = projInitLots p := rfl
  have hbound : ∀ jid, noncnt jid (projInitLots p) ≤ projLpj p := by
    intro jid
    refine le_trans (noncnt_fillJobs (projLpj p) ((p.analysis.currentDay : ℕ) : ℚ)
      ((projInitJobs p).map Job.id) 1 (projLotsAtS4 p) (projLotsAtS3 p) (projLotsAtS2 p)
      (projLotsAtS1 p) jid hnodup) ?_
    split_ifs <;> omega
  have hzero : ∀ jid, projTotalJobs p < jid → noncnt jid (projInitLots p) = 0 := by
    intro jid hgt
    refine noncnt_eq_zero_of_bound (projTotalJobs p + 1) ?_ (by omega)
    intro l hl
    have hm := (fillJobs_mem (projLpj p) ((p.analysis.currentDay : ℕ) : ℚ)
      ((projInitJobs p).map Job.id) 1 (projLotsAtS4 p) (projLotsAtS3 p) (projLotsAtS2 p)
      (projLotsAtS1 p) l hl).2.1
    rw [projInitJobs_ids] at hm
    obtain ⟨i, hi, hieq⟩ := List.mem_map.mp hm
    rw [List.mem_range] at hi
    omega
  refine ⟨?_, ?_, ?_, ?_⟩
  · intro j hj
    obtain ⟨hc, ht⟩ := hjshape j hj
    have hb := hbound j.id
    rw [hlotsEq, hc, ht]
    omega
  · intro j hj
    exact (hjshape j hj).2
  · intro jid hjw
    have hw : (projInit p).waitingForKits = (projWaitJobs p).map Job.id := rfl
    rw [hw, projWaitJobs_ids] at hjw
    obtain ⟨i, -, rfl⟩ := List.mem_map.mp hjw
    rw [hlotsEq]
    exact hzero _ (by omega)
  · intro j hj _
    exact (hjshape j hj).1

/-- Every end-of-day state of the projection run satisfies the
job-accounting invariant. -/
theorem proj_C4 (p : ProjInputs) : ∀ n, C4Inv (projLpj p) (projStates p n) := by
  intro n
  induction n with
  | zero => exact projInit_C4 p
  | succ n ih =>
    rw [projStates_succ]
    exact dayStep_C4 _ _ _ _ _ rfl (proj_wf p n) ih

/-- One Poisson arrival appends exactly one record to the job list. -/
theorem arrivalStep_jobs_append (cfg : DayConfig) (day : ℚ) (a : ℕ)
    (acc : SimState × List Lot) (j : ℕ) :
    ∃ jb, (arrivalStep cfg day a acc j).1.jobs = acc.1.jobs ++ [jb] := by
  rw [arrivalStep]
  split_ifs with h
  · exact ⟨_, rfl⟩
  · exact ⟨_, rfl⟩

/-- The whole arrival loop only appends to the job list. -/
theorem foldl_arrivalStep_jobs_append (cfg : DayConfig) (day : ℚ) (a : ℕ) :
    ∀ (r : List ℕ) (acc : SimState × List Lot),
      ∃ rest, (r.foldl (arrivalStep cfg day a) acc).1.jobs = acc.1.jobs ++ rest := by
  intro r
  induction r with
  | nil => intro acc; exact ⟨[], (List.append_nil _).symm⟩
  | cons x xs ih =>
    intro acc
    rw [List.foldl_cons]
    obtain ⟨rest, hrest⟩ := ih (arrivalStep cfg day a acc x)
    obtain ⟨jb, hjb⟩ := arrivalStep_jobs_append cfg day a acc x
    exact ⟨[jb] ++ rest, by rw [hrest, hjb, List.append_assoc]⟩

theorem afterMoves_jobs (cfg : DayConfig) (a : ℕ) (day : ℚ) (st : SimState) :
    (afterMoves cfg a day st).jobs =
      bumpCompleted ((psChosen4 cfg (afterArrivals cfg a day st).1).map Lot.jobId)
        (afterArrivals cfg a day st).1.jobs := rfl

theorem completeJobs_fst (day : ℚ) (jobs : List Job) :
    (completeJobs day jobs).1 = jobs.map fun j =>
      if j.completionDay = none ∧ j.completedLots = j.totalLots
      then { j with completionDay := some day } else j := rfl

/-- Per-day transport of a job record: a same-id record survives the day
with the same `totalLots`, a non-decreasing `completedLots`, a sticky
`completionDay`, and a `completionDay` newly set only to the current day and
only together with `completedLots = totalLots`. -/
theorem dayStep_job_transport (cfg : DayConfig) (a : ℕ) (day mc : ℚ) (st : SimState)
    (jb : Job) (hjb : jb ∈ st.jobs) :
    ∃ jb' ∈ (dayStep cfg a day mc st).1.jobs,
      jb'.id = jb.id ∧ jb'.totalLots = jb.totalLots ∧
      jb.completedLots ≤ jb'.completedLots ∧
      (∀ d, jb.completionDay = some d → jb'.completionDay = some d) ∧
      (jb.completionDay = none →
        jb'.completionDay = none ∨
          (jb'.completionDay = some day ∧ jb'.completedLots = jb'.totalLots)) := by
  obtain ⟨extra, g, -, -, hjobs, hg, -, -, -, -, -⟩ :=
    releaseWaitingAux_spec cfg.lotsPerJob day (materialArrival cfg day st).waitingForKits
      { materialArrival cfg day st with waitingForKits := [] }
  have h1 : g jb ∈ (afterRelease cfg day st).jobs := by
    rw [afterRelease, releaseWaiting, hjobs]
    refine List.mem_map_of_mem g ?_
    show jb ∈ (materialArrival cfg day st).jobs
    rw [materialArrival_jobs]
    exact hjb
  obtain ⟨rest, hrest⟩ := foldl_arrivalStep_jobs_append cfg day a (List.range a)
    (afterRelease cfg day st, [])
  have h2 : g jb ∈ (afterArrivals cfg a day st).1.jobs := by
    rw [afterArrivals, processArrivals, hrest]
    exact List.mem_append_left _ h1
  have h4 : (fun j : Job =>
        if j.completionDay = none ∧ j.completedLots = j.totalLots
        then { j with completionDay := some day } else j)
      ((fun j : Job => { j with completedLots := j.completedLots +
          (((psChosen4 cfg (afterArrivals cfg a day st).1).map Lot.jobId).count j.id) }) (g jb))
      ∈ (dayStep cfg a day mc st).1.jobs := by
    rw [dayStep_jobs, completeJobs_fst, afterMoves_jobs, bumpCompleted]
    exact List.mem_map_of_mem _ (List.mem_map_of_mem _ h2)
  obtain ⟨hgid, hgcl, hgtl, hgcd⟩ := hg jb
  refine ⟨_, h4, ?_, ?_, ?_, ?_, ?_⟩
  · dsimp only
    split_ifs <;> exact hgid
  · dsimp only
    split_ifs <;> exact hgtl
  · dsimp only
    split_ifs <;> exact le_trans (le_of_eq hgcl.symm) (Nat.le_add_right _ _)
  · intro d hd
    dsimp only
    rw [if_neg (fun hcon => by
      have h5 : (g jb).completionDay = none := hcon.1
      rw [hgcd, hd] at h5
      exact Option.noConfusion h5)]
    exact hgcd.trans hd
  · intro h5
    dsimp only
    split_ifs with hc
    · exact Or.inr ⟨rfl, hc.2⟩
    · exact Or.inl (hgcd.trans h5)

/-- After the day's completion check, a job still lacking a completion day
has not yet completed all its lots. -/
theorem dayStep_complete_post (cfg : DayConfig) (a : ℕ) (day mc : ℚ) (st : SimState) :
    ∀ jb ∈ (dayStep cfg a day mc st).1.jobs,
      jb.completionDay = none → jb.completedLots ≠ jb.totalLots := by
  intro jb hjb hnone
  rw [dayStep_jobs, completeJobs_fst] at hjb
  obtain ⟨j0, hj0, rfl⟩ := List.mem_map.mp hjb
  by_cases hc : j0.completionDay = none ∧ j0.completedLots = j0.totalLots
  · rw [if_pos hc] at hnone
    exact Option.noConfusion (show (some day : Option ℚ) = none from hnone)
  · rw [if_neg hc] at hnone ⊢
    intro he
    exact hc ⟨hnone, he⟩

/-- C4: in the projection hook's run every job satisfies
`completedLots ≤ totalLots` at the end of every simulated day (including the
reconstructed initial state); across any single simulated day of either
engine every job record is carried to a same-id record whose set
`completionDay` is preserved verbatim and which acquires a `completionDay`
(always the current day) only together with `completedLots = totalLots`; and
at the end of any simulated day a job without a completion day has
`completedLots ≠ totalLots`, so the day that sets it is the first day the
equality holds at a day boundary. -/
theorem claim_C4_lot_conservation :
    (∀ (p : ProjInputs) (n : ℕ), ∀ jb ∈ (projStates p n).jobs,
        jb.completedLots ≤ jb.totalLots) ∧
    (∀ (cfg : DayConfig) (a : ℕ) (day mc : ℚ) (st : SimState), ∀ jb ∈ st.jobs,
        ∃ jb' ∈ (dayStep cfg a day mc st).1.jobs,
          jb'.id = jb.id ∧ jb'.totalLots = jb.totalLots ∧
          jb.completedLots ≤ jb'.completedLots ∧
          (∀ d, jb.completionDay = some d → jb'.completionDay = some d) ∧
          (jb.completionDay = none →
            jb'.completionDay = none ∨
              (jb'.completionDay = some day ∧ jb'.completedLots = jb'.totalLots))) ∧
    (∀ (cfg : DayConfig) (a : ℕ) (day mc : ℚ) (st : SimState),
        ∀ jb ∈ (dayStep cfg a day mc st).1.jobs,
          jb.completionDay = none → jb.completedLots ≠ jb.totalLots) := by
  refine ⟨?_, ?_, ?_⟩
  · intro p n jb hjb
    have h := (proj_C4 p n).1 jb hjb
    omega
  · intro cfg a day mc st jb hjb
    exact dayStep_job_transport cfg a day mc st jb hjb
  · intro cfg a day mc st
    exact dayStep_complete_post cfg a day mc st

/-- Job record 1 of the small projection input after one simulated day. -/
def c4wJob : Job :=
  { id := 1
    startDay := 98
    contractType := 1
    promisedLeadTime := 7
    maxLeadTime := 14
    revenue := 750
    totalLots := 3
    completedLots := 3
    completionDay := some 101 }

set_option maxRecDepth 8000 in
theorem claim_C4_witness :
    c4wJob ∈ (projStates projInputsSmall 1).jobs ∧
      c4wJob.completedLots ≤ c4wJob.totalLots := by
  have hmem : c4wJob ∈ (projStates projInputsSmall 1).jobs := by
    with_unfolding_all decide
  exact ⟨hmem, claim_C4_lot_conservation.1 projInputsSmall 1 c4wJob hmem⟩

/-- Timeline input whose scheduled lot-size change (20 → 15 on day 2)
arrives while the day-1 burst of 17 jobs still waits for kits: the last
released job keeps `totalLots = 3` from its creation but receives four lots
on release. -/
def tlInputsLotChange : TimelineInputs :=
  { analysis :=
      { currentDay := 0
        avgLeadTime := 0
        debt := 0
        cash := 1000
        avgQueuedJobs := 0
        avgQueue1 := 0
        avgQueue2 := 0
        avgQueue3 := 0 }
    changes := [{ recommendedDay := 2, effect := ChangeEffect.setLotSize 15, cost := 0, needsDebt := false }]
    initialSettings :=
      { lotSize := 20
        contract := 1
        station1Machines := 1
        station2Machines := 1
        station3Machines := 1
        materialReorderPoint := 50
        materialOrderQty := 100 }
    oracle := fun d => if d = 1 then 17 else 0
    cashRate := 0
    debtRate := 0 }

set_option maxRecDepth 20000 in
/-- C4 counterexample: in the timeline engine a lot-size change scheduled
while jobs wait for kits drives `completedLots` above `totalLots` — after
eight simulated days of `tlInputsLotChange`, job 17 holds
`totalLots = 3` but `completedLots = 4`, and it is never marked complete. -/
theorem claim_C4_counterexample :
    ∃ jb ∈ (timelineRun tlInputsLotChange 8).2.jobs,
      jb.totalLots < jb.completedLots ∧ jb.completionDay = none := by
  refine ⟨{ id := 17
            startDay := 5
            contractType := 1
            promisedLeadTime := 7
            maxLeadTime := 14
            revenue := 750
            totalLots := 3
            completedLots := 4
            completionDay := none }, ?_, by decide, rfl⟩
  with_unfolding_all decide

end Littlefield
